import Mathlib

/-!
Verification of the date-tree subsystem (`src/DateTree.ts`).

The development shallowly embeds the TypeScript source: moments are records of
native calendar components (month zero-based, as in the `moment` library),
the Gun store is a finite set of leaf dates, node references are key paths
from the root, and the per-node ordered child listing (`iterateRefs`, whose
implementation file is not among the sources) is modelled from the spec's
store contract.
-/

/-- The calendar-unit ladder (source: `ALL_DATE_UNITS` order). -/
inductive DateUnit
  | year
  | month
  | day
  | hour
  | minute
  | second
  | millisecond
deriving DecidableEq, Repr, Fintype

open DateUnit

def ALL_DATE_UNITS : List DateUnit :=
  [year, month, day, hour, minute, second, millisecond]

/-- Position of a unit in the ladder (source: `ALL_DATE_UNITS.indexOf`). -/
def DateUnit.idx : DateUnit → Nat
  | .year => 0
  | .month => 1
  | .day => 2
  | .hour => 3
  | .minute => 4
  | .second => 5
  | .millisecond => 6

/-- A point in time, as the `moment` library stores it: native calendar
components in UTC.  `monthN` is the native zero-based month (January = 0). -/
structure MomentM where
  year : Int
  monthN : Int
  day : Int
  hour : Int
  minute : Int
  second : Int
  milli : Int
deriving DecidableEq, Repr

/-- Native component read, `m.get(nativeDateUnit(unit))`. -/
def MomentM.get (m : MomentM) : DateUnit → Int
  | .year => m.year
  | .month => m.monthN
  | .day => m.day
  | .hour => m.hour
  | .minute => m.minute
  | .second => m.second
  | .millisecond => m.milli

/-- Native component write, `m.set(nativeDateUnit(unit), val)`.  Modelled for
in-range values, where moment's `set` assigns the component exactly (the
claims' theorems restrict to valid dates, so overflow bubbling never occurs). -/
def MomentM.set (m : MomentM) : DateUnit → Int → MomentM
  | .year, v => { m with year := v }
  | .month, v => { m with monthN := v }
  | .day, v => { m with day := v }
  | .hour, v => { m with hour := v }
  | .minute, v => { m with minute := v }
  | .second, v => { m with second := v }
  | .millisecond, v => { m with milli := v }

/-- `const ZERO_DATE = moment.utc().startOf('year').set('year', 1)`:
midnight, January 1 of year 1 (UTC). -/
def ZERO_DATE : MomentM := ⟨1, 0, 1, 0, 0, 0, 0⟩

/-- `graphDateValue`: months are exposed 1-based on the graph side. -/
def graphDateValue (value : Int) (res : DateUnit) : Int :=
  if res = month then value + 1 else value

/-- `nativeDateValue`: inverse month shift when writing back into a moment. -/
def nativeDateValue (value : Int) (res : DateUnit) : Int :=
  if res = month then value - 1 else value

/-- Days in a native (zero-based) month of a proleptic Gregorian year,
as the `moment` library computes it. -/
def daysInMonth (y : Int) (mN : Int) : Int :=
  if mN = 1 then
    if y % 4 = 0 ∧ (y % 100 ≠ 0 ∨ y % 400 = 0) then 29 else 28
  else if mN = 3 ∨ mN = 5 ∨ mN = 8 ∨ mN = 10 then 30
  else 31

/-- A real calendar date: every native component within its range. -/
def MomentM.Valid (m : MomentM) : Prop :=
  1 ≤ m.year ∧ m.year ≤ 9999 ∧
  0 ≤ m.monthN ∧ m.monthN ≤ 11 ∧
  1 ≤ m.day ∧ m.day ≤ daysInMonth m.year m.monthN ∧
  0 ≤ m.hour ∧ m.hour ≤ 23 ∧
  0 ≤ m.minute ∧ m.minute ≤ 59 ∧
  0 ≤ m.second ∧ m.second ≤ 59 ∧
  0 ≤ m.milli ∧ m.milli ≤ 999

instance (m : MomentM) : Decidable m.Valid := by
  unfold MomentM.Valid; infer_instance

/-- The native components, coarsest first. -/
def natVec (m : MomentM) : List Int :=
  [m.year, m.monthN, m.day, m.hour, m.minute, m.second, m.milli]

/-- Strict lexicographic order on equal-length component lists. -/
def vecLtB : List Int → List Int → Bool
  | a :: as, b :: bs => decide (a < b) || (decide (a = b) && vecLtB as bs)
  | _, _ => false

/-- `moment.isBefore`: timestamps compare like lexicographically ordered
calendar components for (valid, UTC) dates.  Modelled from moment as the
lexicographic order on native components. -/
def momentLt (a b : MomentM) : Prop := vecLtB (natVec a) (natVec b) = true

instance (a b : MomentM) : Decidable (momentLt a b) := by
  unfold momentLt; infer_instance

/-- `moment.isSame`: equal timestamps, i.e. equal native components. -/
def momentSameB (a b : MomentM) : Bool := a == b

/-- `moment.startOf(res)`: components finer than `res` move to their start
values (native month 0, day 1, time 0).  Modelled from moment. -/
def startOfMoment (m : MomentM) : DateUnit → MomentM
  | .year => ⟨m.year, 0, 1, 0, 0, 0, 0⟩
  | .month => ⟨m.year, m.monthN, 1, 0, 0, 0, 0⟩
  | .day => ⟨m.year, m.monthN, m.day, 0, 0, 0, 0⟩
  | .hour => ⟨m.year, m.monthN, m.day, m.hour, 0, 0, 0⟩
  | .minute => ⟨m.year, m.monthN, m.day, m.hour, m.minute, 0, 0⟩
  | .second => ⟨m.year, m.monthN, m.day, m.hour, m.minute, m.second, 0⟩
  | .millisecond => m

/-- `m` lies on a `res` boundary. -/
def alignedAt (m : MomentM) (res : DateUnit) : Prop := startOfMoment m res = m

def prevMonthOf (y mN : Int) : Int × Int :=
  if mN = 0 then (y - 1, 11) else (y, mN - 1)

def subtractOneDay (m : MomentM) : MomentM :=
  if 1 < m.day then { m with day := m.day - 1 }
  else
    let p := prevMonthOf m.year m.monthN
    { m with year := p.1, monthN := p.2, day := daysInMonth p.1 p.2 }

def subtractOneHour (m : MomentM) : MomentM :=
  if 0 < m.hour then { m with hour := m.hour - 1 }
  else { subtractOneDay m with hour := 23 }

def subtractOneMinute (m : MomentM) : MomentM :=
  if 0 < m.minute then { m with minute := m.minute - 1 }
  else { subtractOneHour m with minute := 59 }

def subtractOneSecond (m : MomentM) : MomentM :=
  if 0 < m.second then { m with second := m.second - 1 }
  else { subtractOneMinute m with second := 59 }

def subtractOneMilli (m : MomentM) : MomentM :=
  if 0 < m.milli then { m with milli := m.milli - 1 }
  else { subtractOneSecond m with milli := 999 }

/-- `moment.subtract(1, unit)`: calendar subtraction with borrow; month and
year subtraction clamp the day to the target month's length.  Modelled from
moment. -/
def momentSubtract1 (m : MomentM) : DateUnit → MomentM
  | .year =>
    { m with year := m.year - 1, day := min m.day (daysInMonth (m.year - 1) m.monthN) }
  | .month =>
    let p := prevMonthOf m.year m.monthN
    { m with year := p.1, monthN := p.2, day := min m.day (daysInMonth p.1 p.2) }
  | .day => subtractOneDay m
  | .hour => subtractOneHour m
  | .minute => subtractOneMinute m
  | .second => subtractOneSecond m
  | .millisecond => subtractOneMilli m

/-- Decimal digit character for `d < 10`. -/
def digitChar (d : Nat) : Char := Char.ofNat (48 + d)

/-- Numeric value of a digit character. -/
def digitVal (c : Char) : Nat := c.toNat - 48

/-- Big-endian decimal digits, with a fuel argument bounding the number of
division steps (structural recursion so that the kernel can evaluate it;
`fuel = n` always suffices, and the fuel-exhausted arm is unreachable). -/
def natDigitsAux : Nat → Nat → List Char → List Char
  | 0, n, acc => digitChar (n % 10) :: acc
  | fuel + 1, n, acc =>
    if n < 10 then digitChar n :: acc
    else natDigitsAux fuel (n / 10) (digitChar (n % 10) :: acc)

/-- Big-endian decimal digits of a natural number (JS `Number.toString()`
restricted to naturals). -/
def natDigits (n : Nat) : List Char := natDigitsAux n n []

def natRepr (n : Nat) : String := ⟨natDigits n⟩

/-- JS `value.toString()` on an integer value. -/
def intRepr (v : Int) : String :=
  if v < 0 then ⟨'-' :: natDigits (-v).toNat⟩ else natRepr v.toNat

/-- JS `String.prototype.padStart(len, c)`. -/
def padStart (s : String) (len : Nat) (c : Char) : String :=
  ⟨List.replicate (len - s.data.length) c ++ s.data⟩

/-- `MAX_DATE_COMPS`: one past each unit's maximum graph value, derived in the
source from `moment.utc().endOf('year')` (native Dec 31 23:59:59.999); the year
is absent from the table. -/
def MAX_DATE_COMPS : DateUnit → Option Nat
  | .year => none
  | .month => some 13
  | .day => some 32
  | .hour => some 24
  | .minute => some 60
  | .second => some 60
  | .millisecond => some 1000

/-- `DATE_COMP_PADS`: key width per unit — 4 for the year, otherwise the
decimal width of the unit's maximum value. -/
def DATE_COMP_PADS (u : DateUnit) : Nat :=
  match MAX_DATE_COMPS u with
  | some mx => (natRepr (mx - 1)).data.length
  | none => 4

/-- Core of `encodeDateComponent` on a present value: zero-pad the decimal
representation to the unit's fixed width. -/
def encodeKey (v : Int) (u : DateUnit) : String :=
  padStart (intRepr v) (DATE_COMP_PADS u) '0'

/-- `DateTree.encodeDateComponent(value, unit)`: `undefined` propagates. -/
def encodeDateComponent (value : Option Int) (u : DateUnit) : Option String :=
  value.map (fun v => encodeKey v u)

/-- Leading decimal digits and the value they denote. -/
def digitsToNat (l : List Char) : Nat :=
  l.foldl (fun a c => a * 10 + digitVal c) 0

/-- The sign, integer digits and fraction digits of a `parseFloat` input in
the tree-key fragment of the grammar (optional sign, digits, optional
fraction); `none` when no digits at all are found (JS `NaN`).  The full
grammar, with its whitespace, `Infinity` and exponent productions, is
modelled by `parseFloatJs` below; the two agree on the all-digit keys the
tree produces (`decodeDateComponent_digits`, `decodeJs_digits`). -/
def parseFloatParts (l : List Char) : Option (Bool × List Char × List Char) :=
  let neg : Bool := l.head? == some '-'
  let body := if l.head? = some '-' ∨ l.head? = some '+' then l.tail else l
  let intPart := body.takeWhile Char.isDigit
  let afterInt := body.dropWhile Char.isDigit
  let fracPart :=
    if afterInt.head? = some '.' then afterInt.tail.takeWhile Char.isDigit else []
  if intPart = [] ∧ fracPart = [] then none
  else some (neg, intPart, fracPart)

/-- The fraction denoted by `frac` digits is ≥ 1/2. -/
def fracGeHalf : List Char → Bool
  | [] => false
  | c :: _ => decide (53 ≤ c.toNat)

/-- The fraction denoted by `frac` digits is > 1/2. -/
def fracGtHalf : List Char → Bool
  | [] => false
  | c :: rest => decide (53 < c.toNat) || (decide (c.toNat = 53) && rest.any (fun d => d ≠ '0'))

/-- JS `Math.round` (half toward positive infinity) of `±(i + 0.frac)`. -/
def jsRound (neg : Bool) (i : Nat) (frac : List Char) : Int :=
  if neg then
    if fracGtHalf frac then -(i + 1 : Int) else -(i : Int)
  else
    if fracGeHalf frac then (i + 1 : Int) else (i : Int)

/-- `DateTree.decodeDateComponent(key)` restricted to the tree-key grammar
fragment, as an `Option`: a finite rounded value is `some`, JS `NaN` is
`none`.  This is the form the tree plumbing consumes (a `Comps` slot holds a
number or is absent); it agrees with the faithful `decodeDateComponentJs`
below on the all-digit keys the tree produces, which are the only keys the
surrounding claims exercise. -/
def decodeDateComponent (key : String) : Option Int :=
  (parseFloatParts key.data).map (fun p => jsRound p.1 (digitsToNat p.2.1) p.2.2)

/-- JS number results distinguishable after `Math.round(parseFloat(key))`:
`NaN`, a signed infinity, or a finite value — an integer, since `Math.round`
has been applied. -/
inductive JsNum
  | nan
  | posInf
  | negInf
  | num (v : Int)
deriving DecidableEq, Repr

/-- JS whitespace skipped by `parseFloat` (`StrWhiteSpaceChar`): tab, LF, VT,
FF, CR, space, NBSP, and the Unicode space separators, line separators and
BOM, identified by code point. -/
def jsWhitespace (c : Char) : Bool :=
  c.toNat == 9 || c.toNat == 10 || c.toNat == 11 || c.toNat == 12 ||
  c.toNat == 13 || c.toNat == 32 || c.toNat == 0xa0 || c.toNat == 0x1680 ||
  (decide (0x2000 ≤ c.toNat) && decide (c.toNat ≤ 0x200a)) ||
  c.toNat == 0x2028 || c.toNat == 0x2029 || c.toNat == 0x202f ||
  c.toNat == 0x205f || c.toNat == 0x3000 || c.toNat == 0xfeff

/-- The sign and remaining text of a `parseFloat` input after the leading
whitespace and the optional sign character. -/
def signSplit (l : List Char) : Bool × List Char :=
  let body0 := l.dropWhile jsWhitespace
  (body0.head? == some '-',
    if body0.head? = some '-' ∨ body0.head? = some '+' then body0.tail else body0)

/-- The longest `StrDecimalLiteral` prefix of a `parseFloat` input: nothing
(JS `NaN`), a signed `Infinity`, or a finite literal `±(int).(frac)e(exp)`
given by its sign, integer digits, fraction digits and decimal exponent. -/
inductive FloatParse
  | nan
  | inf (neg : Bool)
  | finite (neg : Bool) (intPart fracPart : List Char) (exp : Int)
deriving DecidableEq, Repr

/-- The exponent denoted by an `ExponentPart` prefix of `l` (`e` or `E`,
optional sign, digits); 0 when no well-formed exponent follows, since
`parseFloat` then stops before the `e`. -/
def expOf (l : List Char) : Int :=
  match l with
  | e :: rest =>
    if e = 'e' ∨ e = 'E' then
      let es := if rest.head? = some '-' ∨ rest.head? = some '+' then rest.tail else rest
      let edigits := es.takeWhile Char.isDigit
      if edigits = [] then 0
      else if rest.head? = some '-' then -((digitsToNat edigits : Nat) : Int)
      else ((digitsToNat edigits : Nat) : Int)
    else 0
  | [] => 0

/-- JS `parseFloat` grammar: leading whitespace, optional sign, then either
the literal `Infinity` or decimal digits with optional fraction and optional
exponent; `NaN` when no digits (and no `Infinity`) are found.  Trailing
characters after the longest valid prefix are ignored. -/
def parseFloatJs (l : List Char) : FloatParse :=
  let s := signSplit l
  if s.2.take 8 = "Infinity".data then .inf s.1
  else
    let intPart := s.2.takeWhile Char.isDigit
    let afterInt := s.2.dropWhile Char.isDigit
    let fracPart :=
      if afterInt.head? = some '.' then afterInt.tail.takeWhile Char.isDigit else []
    let afterFrac :=
      if afterInt.head? = some '.' then afterInt.tail.dropWhile Char.isDigit else afterInt
    if intPart = [] ∧ fracPart = [] then .nan
    else .finite s.1 intPart fracPart (expOf afterFrac)

/-- JS `Math.round` (half toward positive infinity) of the exact rational
`±mant · 10 ^ exp10`. -/
def roundScaled (neg : Bool) (mant : Nat) (exp10 : Int) : Int :=
  let p : Int := if neg then -(mant : Int) else (mant : Int)
  if 0 ≤ exp10 then p * 10 ^ exp10.toNat
  else Int.fdiv (2 * p + 10 ^ (-exp10).toNat) (2 * 10 ^ (-exp10).toNat)

/-- `Math.round` of the parsed value: `NaN` and `±Infinity` are fixed points;
a finite literal `±(I).(F)e(e)` denotes `±(I·10^|F| + F) · 10^(e−|F|)`. -/
def roundOfParse : FloatParse → JsNum
  | .nan => .nan
  | .inf neg => if neg then .negInf else .posInf
  | .finite neg ip fp e =>
    .num (roundScaled neg (digitsToNat ip * 10 ^ fp.length + digitsToNat fp)
      (e - fp.length))

/-- `DateTree.decodeDateComponent(key)` = `Math.round(parseFloat(key))` over
the full `parseFloat` grammar, including the `Infinity` production.  The
rational value of a finite literal is rounded exactly; IEEE-754 double
rounding of the literal (and overflow of astronomically large finite
literals to `Infinity`) is outside the model, and no theorem below depends
on an input where that matters. -/
def decodeDateComponentJs (key : String) : JsNum :=
  roundOfParse (parseFloatJs key.data)

/-- A date-components object: each ladder unit is present with a numeric value
(`some`), present as JS `NaN`, or absent — both of the latter modelled `none`
(`NaN` keys never arise from tree keys, which are all numeric). -/
def Comps : Type := DateUnit → Option Int

/-- The empty components object `{}`. -/
def emptyComps : Comps := fun _ => none

/-- JS `comps[unit] = val`. -/
def setComp (comps : Comps) (u : DateUnit) (v : Option Int) : Comps :=
  fun x => if x = u then v else comps x

/-- `DateTree.downsampleDateComponents`: keep the units up to and including
`resolution` (the produced JS object has exactly those keys). -/
def downsampleDateComponents (comps : Comps) (resolution : DateUnit) : Comps :=
  fun u => if u.idx ≤ resolution.idx then comps u else none

/-- `_.isEqual` on two downsampled component objects: they carry the same key
set, so object equality is pointwise equality over the ladder. -/
def compsIsEqual (a b : Comps) : Bool :=
  ALL_DATE_UNITS.all (fun u => a u == b u)

/-- `DateTree.getBiggerUnit` (`ALL_DATE_UNITS[indexOf(unit) - 1]`). -/
def getBiggerUnit : DateUnit → Option DateUnit
  | .year => none
  | .month => some year
  | .day => some month
  | .hour => some day
  | .minute => some hour
  | .second => some minute
  | .millisecond => some second

/-- `DateTree.getDateComponents(date, resolution)`: graph values for every
unit from the year up to and including the resolution. -/
def getDateComponents (m : MomentM) (resolution : DateUnit) : Comps :=
  fun u => if u.idx ≤ resolution.idx then some (graphDateValue (m.get u) u) else none

/-- Loop of `DateTree.getDateWithComponents`: walk the ladder from
`ZERO_DATE`, setting each present component and stopping at the first absent
unit or at the resolution. -/
def getDateWithComponentsAux (comps : Comps) (resolution : Option DateUnit) :
    List DateUnit → MomentM → MomentM
  | [], m => m
  | u :: rest, m =>
    match comps u with
    | none => m
    | some v =>
      let m2 := m.set u (nativeDateValue v u)
      if resolution = some u then m2 else getDateWithComponentsAux comps resolution rest m2

/-- `DateTree.getDateWithComponents(comps, resolution?)`. -/
def getDateWithComponents (comps : Comps) (resolution : Option DateUnit) : MomentM :=
  getDateWithComponentsAux comps resolution ALL_DATE_UNITS ZERO_DATE

/-- `DateTree.getDateComponentRange(comps, startComps, endComps, unit)`:
the per-level listing bounds, each dropped unless the traversal is still on
that bound's spine. -/
def getDateComponentRange (comps startComps endComps : Comps) (unit : DateUnit) :
    Option Int × Option Int :=
  let startVal := startComps unit
  let endVal := endComps unit
  if startVal = none ∧ endVal = none then (startVal, endVal)
  else
    match getBiggerUnit unit with
    | none => (startVal, endVal)
    | some upUnit =>
      let upComps := downsampleDateComponents comps upUnit
      let startVal2 :=
        if startVal ≠ none ∧
            ¬ compsIsEqual (downsampleDateComponents startComps upUnit) upComps then
          none
        else startVal
      let endVal2 :=
        if endVal ≠ none ∧
            ¬ compsIsEqual (downsampleDateComponents endComps upUnit) upComps then
          none
        else endVal
      (startVal2, endVal2)

/-- `DateTree._allUnits()`: the ladder prefix ending at the resolution. -/
def allUnitsAux (res : DateUnit) : List DateUnit → List DateUnit
  | [] => []
  | u :: rest => if u = res then [u] else u :: allUnitsAux res rest

def allUnits (res : DateUnit) : List DateUnit := allUnitsAux res ALL_DATE_UNITS

/-- Boolean lexicographic comparison of character lists (= the store's key
order, `List.lt` on characters). -/
def charListLtB : List Char → List Char → Bool
  | [], [] => false
  | [], _ :: _ => true
  | _ :: _, [] => false
  | a :: as, b :: bs => decide (a < b) || (decide (a = b) && charListLtB as bs)

/-- Boolean string comparison agreeing with `String.lt`. -/
def strLtB (a b : String) : Bool := charListLtB a.data b.data

/-- Insert a key into an ascending, duplicate-free key list. -/
def insertKeyStr (k : String) : List String → List String
  | [] => [k]
  | h :: t =>
    if strLtB k h then k :: h :: t
    else if strLtB h k then h :: insertKeyStr k t
    else h :: t

/-- Ascending, duplicate-free arrangement of a key list. -/
def sortDedupKeys (l : List String) : List String := l.foldr insertKeyStr []

/-- The key path from the root to the leaf holding `m` (the keys produced by
`_getRefChain`: each unit's graph component, encoded). -/
def leafPath (res : DateUnit) (m : MomentM) : List String :=
  (allUnits res).map (fun u => encodeKey (graphDateValue (m.get u) u) u)

/-- The child key of node `p` on the way to leaf `m`, when `p` lies on `m`'s
path. -/
def childKeyOf (res : DateUnit) (p : List String) (m : MomentM) : Option String :=
  let path := leafPath res m
  if path.take p.length = p then (path.drop p.length).head? else none

/-- The keys of the children of node `p` in the tree storing `D`, in
ascending key order without duplicates. -/
def childRefs (D : List MomentM) (res : DateUnit) (p : List String) : List String :=
  sortDedupKeys (D.filterMap (childKeyOf res p))

/-- Does key `k` satisfy the listing bounds? -/
def inBoundsB (startKey endKey : Option String) (sIncl eIncl : Bool) (k : String) : Bool :=
  (match startKey with
   | none => true
   | some s => if sIncl then ! strLtB k s else strLtB s k) &&
  (match endKey with
   | none => true
   | some e => if eIncl then ! strLtB e k else strLtB k e)

/-- Modelled from the spec: the store contract's
`children(node, {startKey?, endKey?, startInclusive, endInclusive, reverse?})`
— an ordered sequence of child keys, ordered lexicographically (ascending, or
descending per `reverse`), honoring the supplied bounds and inclusivity, an
absent bound being unrestricted on that side.  (The repository's
`src/iterate.ts`, which implements `iterateRefs` over this contract, is not
among the sources.)  Yielded child nodes are `p ++ [key]`. -/
def iterateRefs (D : List MomentM) (res : DateUnit) (p : List String)
    (startKey endKey : Option String) (sIncl eIncl rev : Bool) : List String :=
  let ks := (childRefs D res p).filter (inBoundsB startKey endKey sIncl eIncl)
  if rev then ks.reverse else ks

/-- The loop of `DateTree.iterate`, written as the depth-first recursion it
performs: at each ladder level open a child listing bounded by
`getDateComponentRange` (intermediate levels are listed inclusively on both
ends; the leaf level uses the caller's inclusivity), record the decoded child
component, and recurse; at the leaf level yield each child with the date
rebuilt from the accumulated components. -/
def iterateVisit (D : List MomentM) (res : DateUnit) (startComps endComps : Comps)
    (startIncl endIncl rev : Bool) :
    List DateUnit → List String → Comps → List (List String × MomentM)
  | [], _, _ => []
  | [u], p, comps =>
    let r := getDateComponentRange comps startComps endComps u
    let ks := iterateRefs D res p (encodeDateComponent r.1 u) (encodeDateComponent r.2 u)
      startIncl endIncl rev
    ks.map (fun k =>
      (p ++ [k],
        getDateWithComponents (setComp comps u (decodeDateComponent k)) (some res)))
  | u :: u2 :: rest, p, comps =>
    let r := getDateComponentRange comps startComps endComps u
    let ks := iterateRefs D res p (encodeDateComponent r.1 u) (encodeDateComponent r.2 u)
      true true rev
    ks.flatMap (fun k =>
      iterateVisit D res startComps endComps startIncl endIncl rev (u2 :: rest)
        (p ++ [k]) (setComp comps u (decodeDateComponent k)))

/-- `DateTree.iterate(opts)` over the tree with root contents `D`:
the sequence of `(leaf, date)` pairs it yields.  Defaults in the source are
`startInclusive = true`, `endInclusive = false`, `reverse = false`. -/
def DateTree.iterate (D : List MomentM) (res : DateUnit)
    (startOpt endOpt : Option MomentM) (startIncl endIncl rev : Bool) :
    List (List String × MomentM) :=
  let startComps :=
    match startOpt with
    | some s => getDateComponents s res
    | none => emptyComps
  let endComps :=
    match endOpt with
    | some e => getDateComponents e res
    | none => emptyComps
  iterateVisit D res startComps endComps startIncl endIncl rev (allUnits res) [] emptyComps

/-- `DateTree.get(date)`: the last node of `_getRefChain` — the leaf at the
full encoded key path. -/
def DateTree.get (res : DateUnit) (m : MomentM) : List String := leafPath res m

def invalidRefMsg : String := "Invalid Gun node reference. Expected a leaf on the date tree."

/-- The walk of `DateTree.getDate`: step `back()` from the reference,
collecting each node's key in front, while fewer than `n` keys are collected;
reaching the root (the empty path) early is an error, and so is not being at
the root once `n` keys are collected. -/
def getDateWalk (n : Nat) (cur : List String) (keys : List String) :
    Except String (List String) :=
  if keys.length < n then
    match _hlast : cur.getLast? with
    | none => .error invalidRefMsg
    | some k => getDateWalk n cur.dropLast (k :: keys)
  else if cur = [] then .ok keys else .error invalidRefMsg
termination_by cur.length
decreasing_by
  cases cur with
  | nil => simp at _hlast
  | cons c cs => simp

/-- `_.zipObject(units, values)` as a components object. -/
def zipObjectComps : List DateUnit → List (Option Int) → Comps
  | [], _ => emptyComps
  | _, [] => emptyComps
  | u :: us, v :: vs => setComp (zipObjectComps us vs) u v

/-- `DateTree.getDate(ref)`: walk back to the root collecting exactly one key
per ladder unit, decode them, and rebuild the date. -/
def DateTree.getDate (res : DateUnit) (ref : List String) : Except String MomentM :=
  match getDateWalk (allUnits res).length ref [] with
  | .error e => .error e
  | .ok keys =>
    .ok (getDateWithComponents
      (zipObjectComps (allUnits res) (keys.map decodeDateComponent)) none)

/-- The per-notification handler registered by `DateTree.changesAbout` for
ladder unit `unit` (the unit whose node's children are being watched):
given a changed child key, decide whether the callback fires and with which
partial components (`some payload`), or the notification is dropped (`none`). -/
def changesAboutHandler (comps : Comps) (unit : DateUnit) (key : String) : Option Comps :=
  if key = "_" then none
  else
    let changeComps := downsampleDateComponents comps unit
    let compVal := decodeDateComponent key
    if compVal ≠ changeComps unit then some (setComp changeComps unit compVal)
    else none

/-- The `for await` loop of `DateTree.next(date)` over the dates its
iteration yields: skip a yield equal to `date`, fail on one before `date`,
return the first other yield, `none` when the sequence ends. -/
def nextScan (date : Option MomentM) :
    List (List String × MomentM) → Except String (Option (List String × MomentM))
  | [] => .ok none
  | (r, d) :: rest =>
    match date with
    | some dt =>
      if momentSameB d dt then nextScan date rest
      else if momentLt d dt then .error "Unexpected date"
      else .ok (some (r, d))
    | none => .ok (some (r, d))

/-- The `for await` loop of `DateTree.previous(date)`: mirror image of
`nextScan` (fail on a yield after `date`). -/
def prevScan (date : Option MomentM) :
    List (List String × MomentM) → Except String (Option (List String × MomentM))
  | [] => .ok none
  | (r, d) :: rest =>
    match date with
    | some dt =>
      if momentSameB d dt then prevScan date rest
      else if momentLt dt d then .error "Unexpected date"
      else .ok (some (r, d))
    | none => .ok (some (r, d))

/-- `DateTree.next(date?)`: iterate from `date` (start exclusive, end
inclusive) and scan. -/
def DateTree.next (D : List MomentM) (res : DateUnit) (date : Option MomentM) :
    Except String (Option (List String × MomentM)) :=
  nextScan date (DateTree.iterate D res date none false true false)

/-- `DateTree.previous(date?)`: iterate in reverse up to `date` (start
inclusive, end exclusive) and scan. -/
def DateTree.previous (D : List MomentM) (res : DateUnit) (date : Option MomentM) :
    Except String (Option (List String × MomentM)) :=
  prevScan date (DateTree.iterate D res none date true false true)

/-- Modelled from moment: `date.add(resolution)` passes the bare unit name as
a duration; moment parses an unrecognized duration string as a zero-length
duration, so the date is unchanged. -/
def addUnitStringDuration (m : MomentM) : MomentM := m

/-- The loop of the static `DateTree.iterateDates(start, end, resolution)`
generator: while the date is before the floored end, yield it and apply
`date.add(resolution)`.  `fuel` bounds how many loop iterations are observed
(the source generator is lazy and can be infinite). -/
def iterateDatesAux (mEnd : MomentM) : Nat → MomentM → List MomentM
  | 0, _ => []
  | fuel + 1, date =>
    if momentLt date mEnd then date :: iterateDatesAux mEnd fuel (addUnitStringDuration date)
    else []

/-- The first `fuel` yields of `DateTree.iterateDates(start, end, res)`. -/
def DateTree.iterateDatesN (fuel : Nat) (start endv : MomentM) (res : DateUnit) :
    List MomentM :=
  iterateDatesAux (startOfMoment endv res) fuel (startOfMoment start res)

/-- `DateTree.previousDate(date)`.  In the source, `m.startOf(resolution)`
mutates `m` in place and returns it, so `floor` and `m` alias one moment
object; the subsequent `floor.isSame(m)` compares that object with itself. -/
def DateTree.previousDate (m : MomentM) (res : DateUnit) : MomentM :=
  let floor := startOfMoment m res
  let mAliased := floor
  if momentSameB floor mAliased then momentSubtract1 floor res else floor

lemma vecLtB_cons {a b : Int} {as bs : List Int} :
    vecLtB (a :: as) (b :: bs) = true ↔ a < b ∨ (a = b ∧ vecLtB as bs = true) := by
  simp [vecLtB]

lemma momentLt_iff {a b : MomentM} : momentLt a b ↔
    a.year < b.year ∨ (a.year = b.year ∧
      (a.monthN < b.monthN ∨ (a.monthN = b.monthN ∧
        (a.day < b.day ∨ (a.day = b.day ∧
          (a.hour < b.hour ∨ (a.hour = b.hour ∧
            (a.minute < b.minute ∨ (a.minute = b.minute ∧
              (a.second < b.second ∨ (a.second = b.second ∧
                a.milli < b.milli))))))))))) := by
  simp [momentLt, natVec, vecLtB]

lemma momentLt_irrefl (a : MomentM) : ¬ momentLt a a := by
  simp [momentLt_iff]

lemma momentSubtract1_lt (m : MomentM) (res : DateUnit) :
    momentLt (momentSubtract1 m res) m := by
  cases res <;>
    simp only [momentSubtract1, momentLt_iff, subtractOneDay, subtractOneHour,
      subtractOneMinute, subtractOneSecond, subtractOneMilli, prevMonthOf] <;>
    (try split_ifs) <;> simp

/-- C10: for every input date, `previousDate(date)` returns the start of the
resolution unit containing the date minus one full resolution unit; the
subtraction is performed even when the input date lies strictly inside a
resolution interval, because the boundary check `floor.isSame(m)` compares the
in-place-floored moment object against itself. -/
theorem previousDate_always_subtracts (m : MomentM) (res : DateUnit)
    (_hinside : startOfMoment m res ≠ m) :
    DateTree.previousDate m res = momentSubtract1 (startOfMoment m res) res ∧
    momentLt (DateTree.previousDate m res) (startOfMoment m res) := by
  have h1 : DateTree.previousDate m res = momentSubtract1 (startOfMoment m res) res := by
    simp [DateTree.previousDate, momentSameB]
  exact ⟨h1, h1 ▸ momentSubtract1_lt _ _⟩

theorem previousDate_always_subtracts_witness :
    startOfMoment ⟨2020, 7, 10, 12, 0, 0, 0⟩ day ≠ (⟨2020, 7, 10, 12, 0, 0, 0⟩ : MomentM) ∧
    (DateTree.previousDate ⟨2020, 7, 10, 12, 0, 0, 0⟩ day
        = momentSubtract1 (startOfMoment ⟨2020, 7, 10, 12, 0, 0, 0⟩ day) day ∧
      momentLt (DateTree.previousDate ⟨2020, 7, 10, 12, 0, 0, 0⟩ day)
        (startOfMoment ⟨2020, 7, 10, 12, 0, 0, 0⟩ day)) :=
  ⟨by decide, previousDate_always_subtracts ⟨2020, 7, 10, 12, 0, 0, 0⟩ day (by decide)⟩

lemma iterateDatesAux_const {mE d : MomentM} (h : momentLt d mE) (fuel : Nat) :
    iterateDatesAux mE fuel d = List.replicate fuel d := by
  induction fuel with
  | zero => rfl
  | succ n ih =>
    simp [iterateDatesAux, addUnitStringDuration, h, ih, List.replicate_succ]

/-- C7: at start 2020-08-01, end 2020-08-03, resolution `day` — a strictly
increasing pair for which the spec promises a finite ascending enumeration —
`iterateDates` never advances: every observed yield is the floored start
(`date.add(resolution)` passes the unit name as a moment duration, which
parses to zero), so the generator never terminates and never moves past the
first date. -/
theorem iterateDates_never_advances (fuel : Nat) :
    DateTree.iterateDatesN fuel ⟨2020, 7, 1, 12, 30, 0, 0⟩ ⟨2020, 7, 3, 0, 0, 0, 0⟩ day
      = List.replicate fuel (⟨2020, 7, 1, 0, 0, 0, 0⟩ : MomentM) := by
  show iterateDatesAux ⟨2020, 7, 3, 0, 0, 0, 0⟩ fuel ⟨2020, 7, 1, 0, 0, 0, 0⟩
      = List.replicate fuel (⟨2020, 7, 1, 0, 0, 0, 0⟩ : MomentM)
  exact iterateDatesAux_const (by decide) fuel

/-- C5 counterexample: a first underlying yield dated exactly the supplied
date — hence not strictly after it — does not make `next`'s scan fail: the
pair is skipped and the scan returns a result (here `ok none`). -/
theorem next_equal_first_yield_returns :
    nextScan (some ⟨2020, 7, 23, 0, 0, 0, 0⟩) [([], ⟨2020, 7, 23, 0, 0, 0, 0⟩)]
        = .ok none ∧
    ¬ momentLt ⟨2020, 7, 23, 0, 0, 0, 0⟩ ⟨2020, 7, 23, 0, 0, 0, 0⟩ := by
  exact ⟨rfl, by decide⟩

/-- C5 (amended): in the scans of `next(date)` and `previous(date)`, a first
yielded date strictly before (resp. strictly after) the supplied date is a
fatal consistency error, while a first yielded date equal to the supplied
date is skipped and the scan continues on the remaining yields. -/
theorem next_previous_defensive_check (dt d : MomentM) (r : List String)
    (rest : List (List String × MomentM)) :
    (momentLt d dt → nextScan (some dt) ((r, d) :: rest) = .error "Unexpected date") ∧
    (d = dt → nextScan (some dt) ((r, d) :: rest) = nextScan (some dt) rest) ∧
    (momentLt dt d → prevScan (some dt) ((r, d) :: rest) = .error "Unexpected date") ∧
    (d = dt → prevScan (some dt) ((r, d) :: rest) = prevScan (some dt) rest) := by
  refine ⟨?_, ?_, ?_, ?_⟩
  · intro h
    have hne : d ≠ dt := by rintro rfl; exact momentLt_irrefl _ h
    simp [nextScan, momentSameB, hne, h]
  · rintro rfl; simp [nextScan, momentSameB]
  · intro h
    have hne : d ≠ dt := by rintro rfl; exact momentLt_irrefl _ h
    simp [prevScan, momentSameB, hne, h]
  · rintro rfl; simp [prevScan, momentSameB]

theorem next_previous_defensive_check_witness :
    nextScan (some ⟨2021, 0, 1, 0, 0, 0, 0⟩) [([], ⟨2020, 0, 1, 0, 0, 0, 0⟩)]
        = .error "Unexpected date" ∧
    prevScan (some ⟨2020, 0, 1, 0, 0, 0, 0⟩) [([], ⟨2021, 0, 1, 0, 0, 0, 0⟩)]
        = .error "Unexpected date" :=
  ⟨(next_previous_defensive_check ⟨2021, 0, 1, 0, 0, 0, 0⟩ ⟨2020, 0, 1, 0, 0, 0, 0⟩ [] []).1
      (by decide),
   (next_previous_defensive_check ⟨2020, 0, 1, 0, 0, 0, 0⟩ ⟨2021, 0, 1, 0, 0, 0, 0⟩ [] []).2.2.1
      (by decide)⟩

/-- C6: for a watcher on `date` (components `getDateComponents m res`), a
child-change notification at ladder unit `unit` with changed key `key`
invokes the callback exactly when `key` is not the metadata key `"_"` and the
decoded value differs from the watched date's own component at `unit`; the
payload is the watched components downsampled to units coarser than or equal
to `unit` with `unit` overwritten by the decoded value, and notifications
whose decoded value equals the watched component are suppressed. -/
theorem changesAbout_notification_filter (m : MomentM) (res unit : DateUnit)
    (key : String) (hu : unit.idx ≤ res.idx) :
    changesAboutHandler (getDateComponents m res) unit key
      = if key ≠ "_" ∧ decodeDateComponent key ≠ some (graphDateValue (m.get unit) unit)
        then some (setComp (downsampleDateComponents (getDateComponents m res) unit) unit
            (decodeDateComponent key))
        else none := by
  have hcomp : downsampleDateComponents (getDateComponents m res) unit unit
      = some (graphDateValue (m.get unit) unit) := by
    simp [downsampleDateComponents, getDateComponents, hu]
  unfold changesAboutHandler
  by_cases hk : key = "_"
  · simp [hk]
  · by_cases hv : decodeDateComponent key = some (graphDateValue (m.get unit) unit)
    · simp [hk, hv, hcomp]
    · simp [hk, hv, hcomp]

theorem changesAbout_notification_filter_witness :
    changesAboutHandler (getDateComponents ⟨2020, 7, 23, 0, 0, 0, 0⟩ day) day "0024"
      = if "0024" ≠ "_" ∧
            decodeDateComponent "0024"
              ≠ some (graphDateValue ((⟨2020, 7, 23, 0, 0, 0, 0⟩ : MomentM).get day) day)
        then some (setComp
            (downsampleDateComponents (getDateComponents ⟨2020, 7, 23, 0, 0, 0, 0⟩ day) day)
            day (decodeDateComponent "0024"))
        else none :=
  changesAbout_notification_filter ⟨2020, 7, 23, 0, 0, 0, 0⟩ day day "0024" (by decide)

lemma compsIsEqual_downsample_iff (a b : Comps) (up : DateUnit) :
    compsIsEqual (downsampleDateComponents a up) (downsampleDateComponents b up) = true
      ↔ ∀ u : DateUnit, u.idx ≤ up.idx → a u = b u := by
  cases up <;>
  · simp only [compsIsEqual, downsampleDateComponents, ALL_DATE_UNITS, DateUnit.idx,
      List.all_cons, List.all_nil, Bool.and_eq_true, beq_iff_eq]
    norm_num
    constructor
    · intro h u hu
      cases u <;> simp only [DateUnit.idx] at hu ⊢ <;> first | omega | tauto
    · intro h
      have h1 := h year; have h2 := h month; have h3 := h day; have h4 := h hour
      have h5 := h minute; have h6 := h second; have h7 := h millisecond
      simp only [DateUnit.idx] at h1 h2 h3 h4 h5 h6 h7
      norm_num at h1 h2 h3 h4 h5 h6 h7 ⊢
      tauto

lemma getDateComponentRange_eq (comps s e : Comps) (unit upUnit : DateUnit)
    (hb : getBiggerUnit unit = some upUnit) :
    getDateComponentRange comps s e unit
      = (if (s unit).isSome = true ∧
              compsIsEqual (downsampleDateComponents s upUnit)
                (downsampleDateComponents comps upUnit) = true
         then s unit else none,
         if (e unit).isSome = true ∧
              compsIsEqual (downsampleDateComponents e upUnit)
                (downsampleDateComponents comps upUnit) = true
         then e unit else none) := by
  unfold getDateComponentRange
  by_cases hP : s unit = none ∧ e unit = none
  · simp [hP.1, hP.2]
  · rw [if_neg hP, hb]
    cases hs : s unit <;> cases he : e unit <;>
      by_cases hcs : compsIsEqual (downsampleDateComponents s upUnit)
          (downsampleDateComponents comps upUnit) = true <;>
      by_cases hce : compsIsEqual (downsampleDateComponents e upUnit)
          (downsampleDateComponents comps upUnit) = true <;>
      simp_all

lemma range_char_of_up (comps s e : Comps) (unit upUnit : DateUnit)
    (hb : getBiggerUnit unit = some upUnit)
    (hidx : ∀ u' : DateUnit, u'.idx ≤ upUnit.idx ↔ u'.idx < unit.idx) :
    ((getDateComponentRange comps s e unit).1
        = if (s unit).isSome = true ∧ (∀ u' : DateUnit, u'.idx < unit.idx → comps u' = s u')
          then s unit else none) ∧
    ((getDateComponentRange comps s e unit).2
        = if (e unit).isSome = true ∧ (∀ u' : DateUnit, u'.idx < unit.idx → comps u' = e u')
          then e unit else none) := by
  rw [getDateComponentRange_eq comps s e unit upUnit hb]
  have hS : (compsIsEqual (downsampleDateComponents s upUnit)
        (downsampleDateComponents comps upUnit) = true)
      ↔ (∀ u' : DateUnit, u'.idx < unit.idx → comps u' = s u') := by
    rw [compsIsEqual_downsample_iff]
    constructor <;> intro h u' hu'
    · exact (h u' ((hidx u').mpr hu')).symm
    · exact (h u' ((hidx u').mp hu')).symm
  have hE : (compsIsEqual (downsampleDateComponents e upUnit)
        (downsampleDateComponents comps upUnit) = true)
      ↔ (∀ u' : DateUnit, u'.idx < unit.idx → comps u' = e u') := by
    rw [compsIsEqual_downsample_iff]
    constructor <;> intro h u' hu'
    · exact (h u' ((hidx u').mpr hu')).symm
    · exact (h u' ((hidx u').mp hu')).symm
  constructor
  · exact if_congr (and_congr_right fun _ => hS) rfl rfl
  · exact if_congr (and_congr_right fun _ => hE) rfl rfl

/-- C2: at each ladder depth, the per-level child-listing bound for `unit` is,
independently for each side, the global start's (resp. end's) value at `unit`
exactly when that side defines a value at `unit` and the already-chosen
ancestor components at all coarser units equal that side's components there;
otherwise no bound is applied on that side. -/
theorem getDateComponentRange_spine_characterization
    (comps startComps endComps : Comps) (unit : DateUnit) :
    ((getDateComponentRange comps startComps endComps unit).1
        = if (startComps unit).isSome = true ∧
              (∀ u' : DateUnit, u'.idx < unit.idx → comps u' = startComps u')
          then startComps unit else none) ∧
    ((getDateComponentRange comps startComps endComps unit).2
        = if (endComps unit).isSome = true ∧
              (∀ u' : DateUnit, u'.idx < unit.idx → comps u' = endComps u')
          then endComps unit else none) := by
  cases unit
  case year =>
    cases hs : startComps year <;> cases he : endComps year <;>
      simp [getDateComponentRange, getBiggerUnit, hs, he, DateUnit.idx]
  case month => exact range_char_of_up _ _ _ _ _ rfl (by decide)
  case day => exact range_char_of_up _ _ _ _ _ rfl (by decide)
  case hour => exact range_char_of_up _ _ _ _ _ rfl (by decide)
  case minute => exact range_char_of_up _ _ _ _ _ rfl (by decide)
  case second => exact range_char_of_up _ _ _ _ _ rfl (by decide)
  case millisecond => exact range_char_of_up _ _ _ _ _ rfl (by decide)


lemma getDateWalk_nil (n : Nat) (keys : List String) (h : keys.length < n) :
    getDateWalk n [] keys = .error invalidRefMsg := by
  rw [getDateWalk, if_pos h]
  split
  · rfl
  · next k heq => simp at heq

lemma getDateWalk_concat (n : Nat) (l : List String) (a : String) (keys : List String)
    (h : keys.length < n) :
    getDateWalk n (l ++ [a]) keys = getDateWalk n l (a :: keys) := by
  rw [getDateWalk, if_pos h]
  split
  · next heq => simp at heq
  · next k heq =>
    have hk : k = a := by
      rw [List.getLast?_concat] at heq
      exact (Option.some_inj.mp heq).symm
    subst hk
    rw [List.dropLast_concat]

lemma getDateWalk_stop (n : Nat) (cur keys : List String) (h : ¬ keys.length < n) :
    getDateWalk n cur keys = if cur = [] then .ok keys else .error invalidRefMsg := by
  rw [getDateWalk, if_neg h]

lemma getDateWalk_spec (n : Nat) (cur : List String) : ∀ keys : List String,
    getDateWalk n cur keys =
      if keys.length < n then
        (if cur.length + keys.length = n then .ok (cur ++ keys) else .error invalidRefMsg)
      else if cur = [] then .ok keys else .error invalidRefMsg := by
  induction cur using List.reverseRecOn with
  | nil =>
    intro keys
    by_cases h : keys.length < n
    · rw [getDateWalk_nil n keys h, if_pos h, if_neg (by simp; omega)]
    · rw [getDateWalk_stop n [] keys h, if_neg h]
  | append_singleton l a ih =>
    intro keys
    by_cases h : keys.length < n
    · rw [getDateWalk_concat n l a keys h, ih (a :: keys), if_pos h]
      by_cases h2 : (a :: keys).length < n
      · rw [if_pos h2]
        by_cases h3 : l.length + (a :: keys).length = n
        · rw [if_pos h3, if_pos (by simp at h3 ⊢; omega)]
          simp
        · rw [if_neg h3, if_neg (by simp at h3 ⊢; omega)]
      · rw [if_neg h2]
        by_cases hl : l = []
        · subst hl
          rw [if_pos rfl, if_pos (by simp at h2 ⊢; omega)]
          simp
        · have hlp : 0 < l.length := List.length_pos.mpr hl
          rw [if_neg hl, if_neg (by simp at h2 ⊢; omega)]
    · rw [getDateWalk_stop n (l ++ [a]) keys h, if_neg h]


lemma natDigitsAux_acc : ∀ (fuel n : Nat) (acc : List Char),
    natDigitsAux fuel n acc = natDigitsAux fuel n [] ++ acc := by
  intro fuel
  induction fuel with
  | zero => intro n acc; simp [natDigitsAux]
  | succ f ih =>
    intro n acc
    by_cases h : n < 10
    · simp [natDigitsAux, h]
    · simp only [natDigitsAux, if_neg h]
      rw [ih (n / 10) (digitChar (n % 10) :: acc), ih (n / 10) [digitChar (n % 10)]]
      simp

lemma natDigitsAux_fuel_invariant : ∀ (n f1 f2 : Nat) (acc : List Char), n ≤ f1 → n ≤ f2 →
    natDigitsAux f1 n acc = natDigitsAux f2 n acc := by
  intro n
  induction n using Nat.strong_induction_on with
  | _ n ih =>
    intro f1 f2 acc h1 h2
    match f1, f2 with
    | 0, 0 => rfl
    | 0, f2 + 1 =>
      have hn : n = 0 := by omega
      subst hn
      simp [natDigitsAux]
    | f1 + 1, 0 =>
      have hn : n = 0 := by omega
      subst hn
      simp [natDigitsAux]
    | f1 + 1, f2 + 1 =>
      by_cases h : n < 10
      · simp [natDigitsAux, h]
      · simp only [natDigitsAux, if_neg h]
        exact ih (n / 10) (by omega) f1 f2 _ (by omega) (by omega)

lemma natDigits_small {n : Nat} (h : n < 10) : natDigits n = [digitChar n] := by
  unfold natDigits
  match n, h with
  | 0, _ => rfl
  | (m + 1), h => simp [natDigitsAux, h]

lemma natDigits_step {n : Nat} (h : ¬ n < 10) : natDigits n = natDigits (n / 10) ++ [digitChar (n % 10)] := by
  unfold natDigits
  match n, h with
  | (m + 1), h =>
    simp only [natDigitsAux, if_neg h]
    rw [natDigitsAux_fuel_invariant ((m + 1) / 10) m ((m + 1) / 10) _ (by omega) (by omega)]
    exact natDigitsAux_acc _ _ _

lemma natDigits_ne_nil (n : Nat) : natDigits n ≠ [] := by
  by_cases h : n < 10
  · rw [natDigits_small h]; simp
  · rw [natDigits_step h]; simp

lemma digitVal_digitChar {d : Nat} (h : d < 10) : digitVal (digitChar d) = d := by
  interval_cases d <;> decide

lemma digitChar_isDigit {d : Nat} (h : d < 10) : (digitChar d).isDigit = true := by
  interval_cases d <;> decide

lemma digitChar_toNat {d : Nat} (h : d < 10) : (digitChar d).toNat = 48 + d := by
  interval_cases d <;> decide

lemma natDigits_all_digits (n : Nat) : ∀ c ∈ natDigits n, c.isDigit = true := by
  induction n using Nat.strong_induction_on with
  | _ n ih =>
    by_cases h : n < 10
    · rw [natDigits_small h]
      intro c hc
      simp at hc
      subst hc
      exact digitChar_isDigit h
    · rw [natDigits_step h]
      intro c hc
      rcases List.mem_append.mp hc with hc | hc
      · exact ih (n / 10) (Nat.div_lt_self (by omega) (by omega)) c hc
      · simp at hc
        subst hc
        exact digitChar_isDigit (Nat.mod_lt _ (by omega))

lemma foldl_digits_from (l : List Char) : ∀ a : Nat,
    l.foldl (fun x c => x * 10 + digitVal c) a = a * 10 ^ l.length + digitsToNat l := by
  induction l with
  | nil => intro a; simp [digitsToNat]
  | cons c cs ih =>
    intro a
    have hc : digitsToNat (c :: cs) = digitVal c * 10 ^ cs.length + digitsToNat cs := by
      unfold digitsToNat
      simp only [List.foldl_cons]
      rw [ih (0 * 10 + digitVal c)]
      simp [digitsToNat]
    simp only [List.foldl_cons]
    rw [ih (a * 10 + digitVal c), hc]
    simp [List.length_cons]
    ring

lemma digitsToNat_cons (c : Char) (cs : List Char) :
    digitsToNat (c :: cs) = digitVal c * 10 ^ cs.length + digitsToNat cs := by
  unfold digitsToNat
  simp only [List.foldl_cons]
  rw [foldl_digits_from]
  simp [digitsToNat]

lemma digitsToNat_append (l1 l2 : List Char) :
    digitsToNat (l1 ++ l2) = digitsToNat l1 * 10 ^ l2.length + digitsToNat l2 := by
  unfold digitsToNat
  rw [List.foldl_append, foldl_digits_from]
  rfl

lemma digitsToNat_replicate : ∀ k : Nat, digitsToNat (List.replicate k '0') = 0 := by
  intro k
  induction k with
  | zero => rfl
  | succ j ihz =>
    rw [List.replicate_succ, digitsToNat_cons, ihz]
    simp [show digitVal '0' = 0 from rfl]

lemma digitsToNat_replicate_zero (k : Nat) (l : List Char) :
    digitsToNat (List.replicate k '0' ++ l) = digitsToNat l := by
  rw [digitsToNat_append, digitsToNat_replicate]
  simp

lemma digitsToNat_natDigits (n : Nat) : digitsToNat (natDigits n) = n := by
  induction n using Nat.strong_induction_on with
  | _ n ih =>
    by_cases h : n < 10
    · rw [natDigits_small h, digitsToNat_cons]
      simp [digitVal_digitChar h, digitsToNat]
    · rw [natDigits_step h, digitsToNat_append,
        ih (n / 10) (Nat.div_lt_self (by omega) (by omega)),
        digitsToNat_cons]
      simp [digitVal_digitChar (Nat.mod_lt n (by omega) : n % 10 < 10), digitsToNat]
      omega

lemma isDigit_toNat_bounds (c : Char) (h : c.isDigit = true) :
    48 ≤ c.toNat ∧ c.toNat ≤ 57 := by
  simp [Char.isDigit] at h
  exact ⟨h.1, h.2⟩

lemma digitsToNat_lt (l : List Char) (h : ∀ c ∈ l, c.isDigit = true) :
    digitsToNat l < 10 ^ l.length := by
  induction l with
  | nil => simp [digitsToNat]
  | cons c cs ih =>
    rw [digitsToNat_cons]
    have hv : digitVal c ≤ 9 := by
      have := isDigit_toNat_bounds c (h c (by simp))
      unfold digitVal
      omega
    have hr : digitsToNat cs < 10 ^ cs.length := ih (fun x hx => h x (by simp [hx]))
    calc digitVal c * 10 ^ cs.length + digitsToNat cs
        < digitVal c * 10 ^ cs.length + 10 ^ cs.length := Nat.add_lt_add_left hr _
      _ = (digitVal c + 1) * 10 ^ cs.length := by ring
      _ ≤ 10 * 10 ^ cs.length := Nat.mul_le_mul_right _ (by omega)
      _ = 10 ^ (c :: cs).length := by rw [List.length_cons]; ring

lemma natDigits_length_le : ∀ (k n : Nat), 0 < k → n < 10 ^ k → (natDigits n).length ≤ k := by
  intro k
  induction k with
  | zero => omega
  | succ k ih =>
    intro n _ h
    by_cases hs : n < 10
    · rw [natDigits_small hs]
      simp
    · rw [natDigits_step hs]
      have hk1 : 0 < k := by
        rcases Nat.eq_zero_or_pos k with h0 | h0
        · subst h0; simp at h; omega
        · exact h0
      have hdiv : n / 10 < 10 ^ k := by
        rw [Nat.div_lt_iff_lt_mul (by omega)]
        calc n < 10 ^ (k + 1) := h
          _ = 10 ^ k * 10 := by ring
      have := ih (n / 10) hk1 hdiv
      simp
      omega


lemma takeWhile_all {p : Char → Bool} : ∀ {l : List Char}, (∀ c ∈ l, p c = true) →
    l.takeWhile p = l := by
  intro l
  induction l with
  | nil => intro _; rfl
  | cons c cs ih =>
    intro h
    rw [List.takeWhile_cons, if_pos (h c (by simp)), ih (fun x hx => h x (by simp [hx]))]

lemma dropWhile_none_left {p : Char → Bool} : ∀ {l : List Char}, (∀ c ∈ l, p c = true) →
    l.dropWhile p = [] := by
  intro l
  induction l with
  | nil => intro _; rfl
  | cons c cs ih =>
    intro h
    rw [List.dropWhile_cons, if_pos (h c (by simp))]
    exact ih (fun x hx => h x (by simp [hx]))

lemma takeWhile_nil_of_none {p : Char → Bool} {l : List Char}
    (h : ∀ c ∈ l, p c = false) : l.takeWhile p = [] := by
  cases l with
  | nil => rfl
  | cons c cs => rw [List.takeWhile_cons, if_neg (by simp [h c (by simp)])]

lemma dropWhile_self_of_none {p : Char → Bool} {l : List Char}
    (h : ∀ c ∈ l, p c = false) : l.dropWhile p = l := by
  cases l with
  | nil => rfl
  | cons c cs => rw [List.dropWhile_cons, if_neg (by simp [h c (by simp)])]

lemma parseFloatParts_digits (l : List Char) (hne : l ≠ [])
    (hd : ∀ c ∈ l, c.isDigit = true) :
    parseFloatParts l = some (false, l, []) := by
  unfold parseFloatParts
  have hsign : ¬ (l.head? = some '-' ∨ l.head? = some '+') := by
    cases l with
    | nil => exact absurd rfl hne
    | cons c cs =>
      have hc := hd c (by simp)
      rintro (hx | hx) <;> rw [List.head?_cons, Option.some_inj] at hx <;> subst hx <;>
        exact absurd hc (by decide)
  rw [if_neg hsign]
  dsimp only
  rw [takeWhile_all hd, dropWhile_none_left hd]
  simp only [List.head?_nil, List.tail_nil]
  have hdotn : ¬ ((none : Option Char) = some '.') := by simp
  rw [if_neg hdotn]
  rw [if_neg (show ¬ (l = [] ∧ ([] : List Char) = []) by simp [hne])]
  have hnegb : (l.head? == some '-') = false := by
    cases l with
    | nil => exact absurd rfl hne
    | cons c cs =>
      have hc := hd c (by simp)
      simp only [List.head?_cons, beq_eq_false_iff_ne, ne_eq, Option.some_inj]
      rintro rfl
      exact absurd hc (by decide)
  rw [hnegb]

lemma parseFloatParts_none (l : List Char) (h : ∀ c ∈ l, c.isDigit = false) :
    parseFloatParts l = none := by
  unfold parseFloatParts
  have htail : ∀ c ∈ l.tail, c.isDigit = false :=
    fun x hx => h x (List.mem_of_mem_tail hx)
  by_cases hsign : l.head? = some '-' ∨ l.head? = some '+'
  · rw [if_pos hsign]
    dsimp only
    rw [takeWhile_nil_of_none htail, dropWhile_self_of_none htail]
    by_cases hdot : l.tail.head? = some '.'
    · rw [if_pos hdot,
        takeWhile_nil_of_none (fun x hx => htail x (List.mem_of_mem_tail hx))]
      simp
    · rw [if_neg hdot]
      simp
  · rw [if_neg hsign]
    dsimp only
    rw [takeWhile_nil_of_none h, dropWhile_self_of_none h]
    by_cases hdot : l.head? = some '.'
    · rw [if_pos hdot, takeWhile_nil_of_none htail]
      simp
    · rw [if_neg hdot]
      simp

lemma decodeDateComponent_digits (l : List Char) (hne : l ≠ [])
    (hd : ∀ c ∈ l, c.isDigit = true) :
    decodeDateComponent ⟨l⟩ = some ((digitsToNat l : Nat) : Int) := by
  unfold decodeDateComponent
  show (parseFloatParts l).map _ = _
  rw [parseFloatParts_digits l hne hd]
  simp [jsRound, fracGeHalf]

lemma encodeKey_data (v : Int) (u : DateUnit) (hv : 0 ≤ v) :
    (encodeKey v u).data
      = List.replicate (DATE_COMP_PADS u - (natDigits v.toNat).length) '0'
          ++ natDigits v.toNat := by
  unfold encodeKey padStart intRepr natRepr
  rw [if_neg (by omega)]

lemma encodeKey_all_digits (v : Int) (u : DateUnit) (hv : 0 ≤ v) :
    ∀ c ∈ (encodeKey v u).data, c.isDigit = true := by
  rw [encodeKey_data v u hv]
  intro c hc
  rcases List.mem_append.mp hc with hc | hc
  · rw [List.eq_of_mem_replicate hc]; decide
  · exact natDigits_all_digits _ c hc

lemma decode_encodeKey (v : Int) (u : DateUnit) (hv : 0 ≤ v) :
    decodeDateComponent (encodeKey v u) = some v := by
  have hne : (encodeKey v u).data ≠ [] := by
    rw [encodeKey_data v u hv]
    simp [natDigits_ne_nil]
  have hstr : encodeKey v u = ⟨(encodeKey v u).data⟩ := rfl
  rw [hstr, decodeDateComponent_digits _ hne (encodeKey_all_digits v u hv),
    encodeKey_data v u hv, digitsToNat_replicate_zero, digitsToNat_natDigits]
  rw [Int.toNat_of_nonneg hv]

lemma jsWhitespace_digit (c : Char) (h : c.isDigit = true) : jsWhitespace c = false := by
  obtain ⟨h1, h2⟩ := isDigit_toNat_bounds c h
  by_contra hcon
  rw [Bool.not_eq_false] at hcon
  simp only [jsWhitespace, Bool.or_eq_true, beq_iff_eq, Bool.and_eq_true,
    decide_eq_true_eq] at hcon
  omega

lemma sign_not_digit (c : Char) (h : c.isDigit = true) : ¬ (c = '-' ∨ c = '+') := by
  obtain ⟨h1, h2⟩ := isDigit_toNat_bounds c h
  rintro (rfl | rfl) <;> revert h1 h2 <;> decide

lemma signSplit_digits (l : List Char) (hne : l ≠ []) (hd : ∀ c ∈ l, c.isDigit = true) :
    signSplit l = (false, l) := by
  cases l with
  | nil => exact absurd rfl hne
  | cons c rest =>
    have hdc := hd c (by simp)
    have hws : jsWhitespace c = false := jsWhitespace_digit c hdc
    have hdrop : (c :: rest).dropWhile jsWhitespace = c :: rest := by
      rw [List.dropWhile_cons, if_neg (by simp [hws])]
    have hsign := sign_not_digit c hdc
    unfold signSplit
    rw [hdrop]
    dsimp only
    rw [if_neg (by simpa using hsign)]
    have hbeq : ((c :: rest).head? == some '-') = false := by
      have hcn : ¬ c = '-' := fun hc => hsign (Or.inl hc)
      simpa using hcn
    rw [hbeq]

lemma signSplit_sublist (l : List Char) : (signSplit l).2.Sublist l := by
  unfold signSplit
  dsimp only
  split
  · exact (List.tail_sublist _).trans (List.dropWhile_sublist _)
  · exact List.dropWhile_sublist _

lemma decodeJs_digits (l : List Char) (hne : l ≠ []) (hd : ∀ c ∈ l, c.isDigit = true) :
    decodeDateComponentJs ⟨l⟩ = .num ((digitsToNat l : Nat) : Int) := by
  unfold decodeDateComponentJs parseFloatJs
  show roundOfParse _ = _
  rw [signSplit_digits l hne hd]
  dsimp only
  have hinf : ¬ (l.take 8 = "Infinity".data) := by
    cases l with
    | nil => exact absurd rfl hne
    | cons c rest =>
      intro hcon
      have hc : c = 'I' := by
        have hh := congrArg List.head? hcon
        simpa using hh
      have hdc := hd c (by simp)
      rw [hc] at hdc
      exact absurd hdc (by decide)
  rw [if_neg hinf, takeWhile_all hd, dropWhile_none_left hd]
  have hdotn : ¬ (([] : List Char).head? = some '.') := by simp
  rw [if_neg hdotn, if_neg hdotn, if_neg (by simp [hne])]
  show JsNum.num (roundScaled false (digitsToNat l * 10 ^ ([] : List Char).length
    + digitsToNat []) (expOf [] - ([] : List Char).length)) = _
  unfold roundScaled expOf digitsToNat
  norm_num

lemma decodeJs_nodigit (key : String) (h : ∀ c ∈ key.data, c.isDigit = false) :
    decodeDateComponentJs key =
      (if (signSplit key.data).2.take 8 = "Infinity".data then
        (if (signSplit key.data).1 then JsNum.negInf else JsNum.posInf)
      else JsNum.nan) := by
  have hbody : ∀ c ∈ (signSplit key.data).2, c.isDigit = false :=
    fun c hc => h c ((signSplit_sublist key.data).subset hc)
  unfold decodeDateComponentJs parseFloatJs
  by_cases hinf : (signSplit key.data).2.take 8 = "Infinity".data
  · rw [if_pos hinf, if_pos hinf]
    show roundOfParse (.inf (signSplit key.data).1) = _
    cases hsg : (signSplit key.data).1 <;> simp [roundOfParse, hsg]
  · rw [if_neg hinf, if_neg hinf]
    dsimp only
    rw [takeWhile_nil_of_none hbody, dropWhile_self_of_none hbody]
    have hfrac : (if (signSplit key.data).2.head? = some '.' then
        (signSplit key.data).2.tail.takeWhile Char.isDigit else []) = [] := by
      split
      · exact takeWhile_nil_of_none (fun c hc => hbody c (List.mem_of_mem_tail hc))
      · rfl
    rw [hfrac]
    rw [if_pos ⟨rfl, rfl⟩]
    rfl

/-- C9 (amended: signed-`Infinity` keys excepted from the failure clause).
`decodeDateComponent(key)` returns the rounded numeric parse of every numeric
key, tolerant of missing zero-padding — in particular
`decode(encode(v, unit)) = v` for every natural `v`, padded or not — and on a
key containing no digit it fails (JS `NaN`) unless, after the whitespace and
optional sign that `parseFloat` skips, the key starts with the literal
`Infinity`: such a key decodes to the corresponding signed infinity rather
than failing.  The original claim's unconditional failure on non-numeric keys
is refuted by `decode_infinity_not_nan`. -/
theorem decode_roundtrip_nan_or_infinity :
    (∀ (u : DateUnit) (v : Nat),
      decodeDateComponentJs (encodeKey (v : Int) u) = .num ((v : Nat) : Int)) ∧
    (∀ v : Nat, decodeDateComponentJs (natRepr v) = .num ((v : Nat) : Int)) ∧
    (∀ key : String, (∀ c ∈ key.data, c.isDigit = false) →
      decodeDateComponentJs key =
        (if (signSplit key.data).2.take 8 = "Infinity".data then
          (if (signSplit key.data).1 then JsNum.negInf else JsNum.posInf)
        else JsNum.nan)) := by
  refine ⟨fun u v => ?_, fun v => ?_, fun key h => decodeJs_nodigit key h⟩
  · have hne : (encodeKey ((v : Nat) : Int) u).data ≠ [] := by
      rw [encodeKey_data _ u (by omega)]
      simp [natDigits_ne_nil]
    have hstr : encodeKey ((v : Nat) : Int) u = ⟨(encodeKey ((v : Nat) : Int) u).data⟩ := rfl
    rw [hstr, decodeJs_digits _ hne (encodeKey_all_digits _ u (by omega)),
      encodeKey_data _ u (by omega), digitsToNat_replicate_zero, digitsToNat_natDigits]
    norm_num
  · have hrepr : natRepr v = ⟨natDigits v⟩ := rfl
    rw [hrepr, decodeJs_digits _ (natDigits_ne_nil v) (natDigits_all_digits v),
      digitsToNat_natDigits]

theorem decode_roundtrip_nan_or_infinity_witness :
    decodeDateComponentJs (encodeKey ((23 : Nat) : Int) day) = .num ((23 : Nat) : Int) ∧
    decodeDateComponentJs (natRepr 23) = .num ((23 : Nat) : Int) ∧
    decodeDateComponentJs "code" =
      (if (signSplit "code".data).2.take 8 = "Infinity".data then
        (if (signSplit "code".data).1 then JsNum.negInf else JsNum.posInf)
      else JsNum.nan) ∧
    decodeDateComponentJs " -Infinity!" =
      (if (signSplit " -Infinity!".data).2.take 8 = "Infinity".data then
        (if (signSplit " -Infinity!".data).1 then JsNum.negInf else JsNum.posInf)
      else JsNum.nan) :=
  ⟨decode_roundtrip_nan_or_infinity.1 day 23,
   decode_roundtrip_nan_or_infinity.2.1 23,
   decode_roundtrip_nan_or_infinity.2.2 "code" (by decide),
   decode_roundtrip_nan_or_infinity.2.2 " -Infinity!" (by decide)⟩

/-- C9 counterexample to the unamended claim: the digit-free key `"Infinity"`
does not make `decodeDateComponent` fail — `parseFloat` accepts the
`Infinity` production and `Math.round(Infinity)` is `Infinity`, so the
program returns a number where the claim promises a failure. -/
theorem decode_infinity_not_nan :
    decodeDateComponentJs "Infinity" = JsNum.posInf ∧
    (∀ c ∈ "Infinity".data, c.isDigit = false) ∧
    decodeDateComponentJs "Infinity" ≠ JsNum.nan := by
  refine ⟨by decide, by decide, by decide⟩

lemma char_lt_iff_toNat {a b : Char} : a < b ↔ a.toNat < b.toNat := by
  rw [Char.lt_iff_val_lt_val]
  rfl

lemma char_eq_of_toNat {a b : Char} (h : a.toNat = b.toNat) : a = b :=
  Char.eq_of_val_eq (UInt32.toNat.inj h)

lemma digit_toNat (c : Char) (h : c.isDigit = true) : c.toNat = 48 + digitVal c := by
  have := isDigit_toNat_bounds c h
  unfold digitVal
  omega

lemma lex_digits_iff : ∀ (xs ys : List Char), (∀ c ∈ xs, c.isDigit = true) →
    (∀ c ∈ ys, c.isDigit = true) → xs.length = ys.length →
    (List.Lex (· < ·) xs ys ↔ digitsToNat xs < digitsToNat ys) := by
  intro xs
  induction xs with
  | nil =>
    intro ys _ _ hlen
    have hys : ys = [] := by
      cases ys
      · rfl
      · simp at hlen
    subst hys
    constructor
    · intro h; cases h
    · intro h; simp [digitsToNat] at h
  | cons c cs ih =>
    intro ys hx hy hlen
    cases ys with
    | nil => simp at hlen
    | cons d ds =>
      have hlen' : cs.length = ds.length := by simpa using hlen
      have hcd := hx c (by simp)
      have hdd := hy d (by simp)
      have hcs : ∀ x ∈ cs, x.isDigit = true := fun x hx2 => hx x (by simp [hx2])
      have hds : ∀ x ∈ ds, x.isDigit = true := fun x hx2 => hy x (by simp [hx2])
      have hcsB : digitsToNat cs < 10 ^ cs.length := digitsToNat_lt cs hcs
      have hdsB : digitsToNat ds < 10 ^ ds.length := digitsToNat_lt ds hds
      rw [digitsToNat_cons, digitsToNat_cons, hlen']
      constructor
      · intro h
        cases h with
        | rel hr =>
          have hv : digitVal c < digitVal d := by
            rw [char_lt_iff_toNat, digit_toNat c hcd, digit_toNat d hdd] at hr
            omega
          calc digitVal c * 10 ^ ds.length + digitsToNat cs
              < digitVal c * 10 ^ ds.length + 10 ^ ds.length := by
                rw [hlen'] at hcsB
                omega
            _ = (digitVal c + 1) * 10 ^ ds.length := by ring
            _ ≤ digitVal d * 10 ^ ds.length := Nat.mul_le_mul_right _ (by omega)
            _ ≤ digitVal d * 10 ^ ds.length + digitsToNat ds := Nat.le_add_right _ _
        | cons h' =>
          exact Nat.add_lt_add_left ((ih ds hcs hds hlen').mp h') _
      · intro hv
        rcases Nat.lt_trichotomy (digitVal c) (digitVal d) with h | h | h
        · apply List.Lex.rel
          rw [char_lt_iff_toNat, digit_toNat c hcd, digit_toNat d hdd]
          omega
        · have hcd2 : c = d := char_eq_of_toNat (by rw [digit_toNat c hcd, digit_toNat d hdd, h])
          subst hcd2
          exact List.Lex.cons ((ih ds hcs hds hlen').mpr (Nat.lt_of_add_lt_add_left hv))
        · exfalso
          have hge : digitVal d * 10 ^ ds.length + digitsToNat ds
              < digitVal c * 10 ^ ds.length + digitsToNat cs := by
            calc digitVal d * 10 ^ ds.length + digitsToNat ds
                < digitVal d * 10 ^ ds.length + 10 ^ ds.length := by omega
              _ = (digitVal d + 1) * 10 ^ ds.length := by ring
              _ ≤ digitVal c * 10 ^ ds.length := Nat.mul_le_mul_right _ (by omega)
              _ ≤ digitVal c * 10 ^ ds.length + digitsToNat cs := Nat.le_add_right _ _
          exact absurd hv (Nat.lt_asymm hge)

lemma encodeKey_length (v : Int) (u : DateUnit) (h0 : 0 ≤ v)
    (hlt : v.toNat < 10 ^ DATE_COMP_PADS u) (hp : 0 < DATE_COMP_PADS u) :
    (encodeKey v u).data.length = DATE_COMP_PADS u := by
  rw [encodeKey_data v u h0]
  simp only [List.length_append, List.length_replicate]
  have := natDigits_length_le (DATE_COMP_PADS u) v.toNat hp hlt
  omega

lemma encodeKey_value (v : Int) (u : DateUnit) (h0 : 0 ≤ v) :
    digitsToNat (encodeKey v u).data = v.toNat := by
  rw [encodeKey_data v u h0, digitsToNat_replicate_zero, digitsToNat_natDigits]

/-- The valid per-unit value ranges: year 1–9999, month 1–12, day 1–31,
hour 0–23, minute and second 0–59, millisecond 0–999. -/
def validRange : DateUnit → Int → Prop
  | .year, v => 1 ≤ v ∧ v ≤ 9999
  | .month, v => 1 ≤ v ∧ v ≤ 12
  | .day, v => 1 ≤ v ∧ v ≤ 31
  | .hour, v => 0 ≤ v ∧ v ≤ 23
  | .minute, v => 0 ≤ v ∧ v ≤ 59
  | .second, v => 0 ≤ v ∧ v ≤ 59
  | .millisecond, v => 0 ≤ v ∧ v ≤ 999

instance (u : DateUnit) (v : Int) : Decidable (validRange u v) := by
  cases u <;> simp only [validRange] <;> infer_instance

lemma validRange_facts (u : DateUnit) (v : Int) (h : validRange u v) :
    0 ≤ v ∧ v.toNat < 10 ^ DATE_COMP_PADS u ∧ 0 < DATE_COMP_PADS u := by
  cases u <;> simp only [validRange] at h
  case year => exact ⟨by omega, by show v.toNat < 10 ^ 4; omega, by decide⟩
  case month => exact ⟨by omega, by show v.toNat < 10 ^ 2; omega, by decide⟩
  case day => exact ⟨by omega, by show v.toNat < 10 ^ 2; omega, by decide⟩
  case hour => exact ⟨by omega, by show v.toNat < 10 ^ 2; omega, by decide⟩
  case minute => exact ⟨by omega, by show v.toNat < 10 ^ 2; omega, by decide⟩
  case second => exact ⟨by omega, by show v.toNat < 10 ^ 2; omega, by decide⟩
  case millisecond => exact ⟨by omega, by show v.toNat < 10 ^ 3; omega, by decide⟩

/-- C3: for every unit and all valid values `a < b` of that unit, the encoded
keys satisfy `encode(a) < encode(b)` in lexicographic string order; in
particular the encoding is injective per unit. -/
theorem encodeDateComponent_strict_mono (u : DateUnit) (a b : Int)
    (ha : validRange u a) (hb : validRange u b) :
    (a < b → encodeKey a u < encodeKey b u) ∧
    (encodeKey a u = encodeKey b u → a = b) := by
  obtain ⟨ha0, haB, hp⟩ := validRange_facts u a ha
  obtain ⟨hb0, hbB, _⟩ := validRange_facts u b hb
  have hlenA := encodeKey_length a u ha0 haB hp
  have hlenB := encodeKey_length b u hb0 hbB hp
  constructor
  · intro hab
    rw [String.lt_iff_toList_lt]
    show List.Lex (· < ·) (encodeKey a u).data (encodeKey b u).data
    apply (lex_digits_iff _ _ (encodeKey_all_digits a u ha0) (encodeKey_all_digits b u hb0)
      (by omega)).mpr
    rw [encodeKey_value a u ha0, encodeKey_value b u hb0]
    omega
  · intro heq
    have hval : digitsToNat (encodeKey a u).data = digitsToNat (encodeKey b u).data := by
      rw [heq]
    rw [encodeKey_value a u ha0, encodeKey_value b u hb0] at hval
    omega

theorem encodeDateComponent_strict_mono_witness :
    ((8 : Int) < 12 → encodeKey 8 month < encodeKey 12 month) ∧
    (encodeKey 8 month = encodeKey 12 month → (8 : Int) = 12) :=
  encodeDateComponent_strict_mono month 8 12 (by decide) (by decide)

lemma native_graph (v : Int) (u : DateUnit) : nativeDateValue (graphDateValue v u) u = v := by
  simp [nativeDateValue, graphDateValue]
  split_ifs <;> omega

/-- C4: for any valid date and any resolution, resolving the leaf via
`get(date)` and applying `getDate` to it returns the original date truncated
to the resolution (units finer than the resolution at their start values),
the zero-based month shift cancelling so the exposed month is 1-based on both
sides. -/
theorem get_getDate_roundtrip (res : DateUnit) (m : MomentM) (hv : m.Valid) :
    DateTree.getDate res (DateTree.get res m) = .ok (startOfMoment m res) := by
  obtain ⟨h1, h2, h3, h4, h5, h6, h7, h8, h9, h10, h11, h12, h13, h14⟩ := hv
  cases res
  case year =>
    unfold DateTree.getDate DateTree.get
    have hpath : leafPath year m = [encodeKey (graphDateValue (m.get year) year) year] := rfl
    rw [hpath, getDateWalk_spec, show allUnits year = [year] from rfl]
    norm_num
    repeat rw [decode_encodeKey _ _ (by simp [graphDateValue, MomentM.get]; omega)]
    simp [zipObjectComps, setComp, emptyComps, getDateWithComponents, getDateWithComponentsAux,
      ALL_DATE_UNITS, MomentM.set, native_graph, ZERO_DATE, startOfMoment, MomentM.get]
  case month =>
    unfold DateTree.getDate DateTree.get
    have hpath : leafPath month m = [encodeKey (graphDateValue (m.get year) year) year, encodeKey (graphDateValue (m.get month) month) month] := rfl
    rw [hpath, getDateWalk_spec, show allUnits month = [year, month] from rfl]
    norm_num
    repeat rw [decode_encodeKey _ _ (by simp [graphDateValue, MomentM.get]; omega)]
    simp [zipObjectComps, setComp, emptyComps, getDateWithComponents, getDateWithComponentsAux,
      ALL_DATE_UNITS, MomentM.set, native_graph, ZERO_DATE, startOfMoment, MomentM.get]
  case day =>
    unfold DateTree.getDate DateTree.get
    have hpath : leafPath day m = [encodeKey (graphDateValue (m.get year) year) year, encodeKey (graphDateValue (m.get month) month) month, encodeKey (graphDateValue (m.get day) day) day] := rfl
    rw [hpath, getDateWalk_spec, show allUnits day = [year, month, day] from rfl]
    norm_num
    repeat rw [decode_encodeKey _ _ (by simp [graphDateValue, MomentM.get]; omega)]
    simp [zipObjectComps, setComp, emptyComps, getDateWithComponents, getDateWithComponentsAux,
      ALL_DATE_UNITS, MomentM.set, native_graph, ZERO_DATE, startOfMoment, MomentM.get]
  case hour =>
    unfold DateTree.getDate DateTree.get
    have hpath : leafPath hour m = [encodeKey (graphDateValue (m.get year) year) year, encodeKey (graphDateValue (m.get month) month) month, encodeKey (graphDateValue (m.get day) day) day, encodeKey (graphDateValue (m.get hour) hour) hour] := rfl
    rw [hpath, getDateWalk_spec, show allUnits hour = [year, month, day, hour] from rfl]
    norm_num
    repeat rw [decode_encodeKey _ _ (by simp [graphDateValue, MomentM.get]; omega)]
    simp [zipObjectComps, setComp, emptyComps, getDateWithComponents, getDateWithComponentsAux,
      ALL_DATE_UNITS, MomentM.set, native_graph, ZERO_DATE, startOfMoment, MomentM.get]
  case minute =>
    unfold DateTree.getDate DateTree.get
    have hpath : leafPath minute m = [encodeKey (graphDateValue (m.get year) year) year, encodeKey (graphDateValue (m.get month) month) month, encodeKey (graphDateValue (m.get day) day) day, encodeKey (graphDateValue (m.get hour) hour) hour, encodeKey (graphDateValue (m.get minute) minute) minute] := rfl
    rw [hpath, getDateWalk_spec, show allUnits minute = [year, month, day, hour, minute] from rfl]
    norm_num
    repeat rw [decode_encodeKey _ _ (by simp [graphDateValue, MomentM.get]; omega)]
    simp [zipObjectComps, setComp, emptyComps, getDateWithComponents, getDateWithComponentsAux,
      ALL_DATE_UNITS, MomentM.set, native_graph, ZERO_DATE, startOfMoment, MomentM.get]
  case second =>
    unfold DateTree.getDate DateTree.get
    have hpath : leafPath second m = [encodeKey (graphDateValue (m.get year) year) year, encodeKey (graphDateValue (m.get month) month) month, encodeKey (graphDateValue (m.get day) day) day, encodeKey (graphDateValue (m.get hour) hour) hour, encodeKey (graphDateValue (m.get minute) minute) minute, encodeKey (graphDateValue (m.get second) second) second] := rfl
    rw [hpath, getDateWalk_spec, show allUnits second = [year, month, day, hour, minute, second] from rfl]
    norm_num
    repeat rw [decode_encodeKey _ _ (by simp [graphDateValue, MomentM.get]; omega)]
    simp [zipObjectComps, setComp, emptyComps, getDateWithComponents, getDateWithComponentsAux,
      ALL_DATE_UNITS, MomentM.set, native_graph, ZERO_DATE, startOfMoment, MomentM.get]
  case millisecond =>
    unfold DateTree.getDate DateTree.get
    have hpath : leafPath millisecond m = [encodeKey (graphDateValue (m.get year) year) year, encodeKey (graphDateValue (m.get month) month) month, encodeKey (graphDateValue (m.get day) day) day, encodeKey (graphDateValue (m.get hour) hour) hour, encodeKey (graphDateValue (m.get minute) minute) minute, encodeKey (graphDateValue (m.get second) second) second, encodeKey (graphDateValue (m.get millisecond) millisecond) millisecond] := rfl
    rw [hpath, getDateWalk_spec, show allUnits millisecond = [year, month, day, hour, minute, second, millisecond] from rfl]
    norm_num
    repeat rw [decode_encodeKey _ _ (by simp [graphDateValue, MomentM.get]; omega)]
    simp [zipObjectComps, setComp, emptyComps, getDateWithComponents, getDateWithComponentsAux,
      ALL_DATE_UNITS, MomentM.set, native_graph, ZERO_DATE, startOfMoment, MomentM.get]

theorem get_getDate_roundtrip_witness :
    DateTree.getDate day (DateTree.get day ⟨2020, 7, 23, 11, 22, 33, 444⟩)
      = .ok (startOfMoment ⟨2020, 7, 23, 11, 22, 33, 444⟩ day) :=
  get_getDate_roundtrip day ⟨2020, 7, 23, 11, 22, 33, 444⟩ (by decide)

/-- The graph components of `m` along a unit list. -/
def compVecFrom (us : List DateUnit) (m : MomentM) : List Int :=
  us.map (fun u => graphDateValue (m.get u) u)

/-- The encoded key path along a unit list with given values. -/
def encodePath : List DateUnit → List Int → List String
  | u :: us, v :: vs => encodeKey v u :: encodePath us vs
  | _, _ => []

/-- The components object accumulated by the traversal after choosing the
values `vs` for the units `us`. -/
def compsOfPrefix : List DateUnit → List Int → Comps
  | u :: us, v :: vs => fun x => if x = u then some v else compsOfPrefix us vs x
  | _, _ => emptyComps

lemma allUnits_eq_take (res : DateUnit) :
    allUnits res = ALL_DATE_UNITS.take (res.idx + 1) := by
  cases res <;> rfl

lemma mem_ladder_take (u' : DateUnit) (i : Nat) :
    u' ∈ ALL_DATE_UNITS.take i ↔ u'.idx < i := by
  match i with
  | 0 => simp [ALL_DATE_UNITS]
  | 1 => cases u' <;> simp [ALL_DATE_UNITS, DateUnit.idx]
  | 2 => cases u' <;> simp [ALL_DATE_UNITS, DateUnit.idx]
  | 3 => cases u' <;> simp [ALL_DATE_UNITS, DateUnit.idx]
  | 4 => cases u' <;> simp [ALL_DATE_UNITS, DateUnit.idx]
  | 5 => cases u' <;> simp [ALL_DATE_UNITS, DateUnit.idx]
  | 6 => cases u' <;> simp [ALL_DATE_UNITS, DateUnit.idx]
  | k + 7 =>
    rw [List.take_of_length_le (by simp [ALL_DATE_UNITS])]
    cases u' <;> simp [ALL_DATE_UNITS, DateUnit.idx]

lemma ladder_get_idx : ∀ j : Fin ALL_DATE_UNITS.length,
    (ALL_DATE_UNITS.get j).idx = j.val := by decide

lemma idx_inj {u u' : DateUnit} (h : u.idx = u'.idx) : u = u' := by
  cases u <;> cases u' <;> simp [DateUnit.idx] at h ⊢

lemma take_ladder_nodup (i : Nat) : (ALL_DATE_UNITS.take i).Nodup :=
  (List.take_sublist i ALL_DATE_UNITS).nodup (by decide)

lemma daysInMonth_le (y mN : Int) : daysInMonth y mN ≤ 31 := by
  unfold daysInMonth
  split_ifs <;> omega

lemma valid_graph_range (m : MomentM) (hv : m.Valid) (u : DateUnit) :
    validRange u (graphDateValue (m.get u) u) := by
  obtain ⟨h1, h2, h3, h4, h5, h6, h7, h8, h9, h10, h11, h12, h13, h14⟩ := hv
  have hd := daysInMonth_le m.year m.monthN
  cases u <;> simp [validRange, graphDateValue, MomentM.get] <;> omega

lemma valid_vec (m : MomentM) (hv : m.Valid) (us : List DateUnit) :
    List.Forall₂ (fun u v => validRange u v) us (compVecFrom us m) := by
  induction us with
  | nil => exact List.Forall₂.nil
  | cons u us ih => exact List.Forall₂.cons (valid_graph_range m hv u) ih

lemma compVecFrom_append (us vs : List DateUnit) (m : MomentM) :
    compVecFrom (us ++ vs) m = compVecFrom us m ++ compVecFrom vs m := by
  simp [compVecFrom]

lemma compVecFrom_length (us : List DateUnit) (m : MomentM) :
    (compVecFrom us m).length = us.length := by
  simp [compVecFrom]

lemma encodePath_append : ∀ (us : List DateUnit) (vs : List Int) (u : DateUnit) (v : Int),
    us.length = vs.length →
    encodePath (us ++ [u]) (vs ++ [v]) = encodePath us vs ++ [encodeKey v u] := by
  intro us
  induction us with
  | nil =>
    intro vs u v hlen
    cases vs
    · rfl
    · simp at hlen
  | cons x xs ih =>
    intro vs u v hlen
    cases vs with
    | nil => simp at hlen
    | cons y ys =>
      simp only [List.cons_append, encodePath, List.append_eq]
      rw [ih ys u v (by simpa using hlen)]

lemma encodePath_length : ∀ (us : List DateUnit) (vs : List Int), us.length = vs.length →
    (encodePath us vs).length = us.length := by
  intro us
  induction us with
  | nil => intro vs _; cases vs <;> rfl
  | cons x xs ih =>
    intro vs hlen
    cases vs with
    | nil => simp at hlen
    | cons y ys => simp [encodePath, ih ys (by simpa using hlen)]

lemma leafPath_eq_encodePath (res : DateUnit) (m : MomentM) :
    leafPath res m = encodePath (allUnits res) (compVecFrom (allUnits res) m) := by
  unfold leafPath compVecFrom
  induction allUnits res with
  | nil => rfl
  | cons u us ih => simp [encodePath, ih]

lemma encodePath_inj : ∀ (us : List DateUnit) (xs ys : List Int),
    List.Forall₂ (fun u v => validRange u v) us xs →
    List.Forall₂ (fun u v => validRange u v) us ys →
    encodePath us xs = encodePath us ys → xs = ys := by
  intro us
  induction us with
  | nil =>
    intro xs ys hx hy _
    cases hx; cases hy; rfl
  | cons u us ih =>
    intro xs ys hx hy heq
    cases hx with
    | cons hxu hxs =>
      cases hy with
      | cons hyu hys =>
        simp only [encodePath, List.cons.injEq] at heq
        have := (encodeDateComponent_strict_mono u _ _ hxu hyu).2 heq.1
        rw [this, ih _ _ hxs hys heq.2]

lemma compsOfPrefix_notMem : ∀ (us : List DateUnit) (vs : List Int) (x : DateUnit),
    us.length = vs.length → x ∉ us → compsOfPrefix us vs x = none := by
  intro us
  induction us with
  | nil => intro vs x _ _; cases vs <;> rfl
  | cons u us ih =>
    intro vs x hlen hx
    cases vs with
    | nil => simp at hlen
    | cons v vs =>
      simp only [compsOfPrefix]
      rw [if_neg (by simp at hx; exact hx.1), ih vs x (by simpa using hlen) (by simp at hx; exact hx.2)]

lemma compsOfPrefix_get : ∀ (us : List DateUnit) (vs : List Int) (j : Nat)
    (hj : j < us.length) (hjv : j < vs.length), us.Nodup →
    compsOfPrefix us vs (us.get ⟨j, hj⟩) = some (vs.get ⟨j, hjv⟩) := by
  intro us
  induction us with
  | nil => intro vs j hj; simp at hj
  | cons u us ih =>
    intro vs j hj hjv hnd
    cases vs with
    | nil => simp at hjv
    | cons v vs =>
      match j with
      | 0 => simp [compsOfPrefix]
      | j + 1 =>
        simp only [compsOfPrefix, List.get_cons_succ]
        rw [if_neg, ih vs j (by simpa using hj) (by simpa using hjv) (by simp at hnd; exact hnd.2)]
        intro hx
        have hmem : us.get ⟨j, by simpa using hj⟩ ∈ us := List.get_mem us j _
        rw [hx] at hmem
        simp at hnd
        exact hnd.1 hmem

lemma compsOfPrefix_snoc : ∀ (us : List DateUnit) (vs : List Int) (u : DateUnit) (v : Int),
    us.length = vs.length → u ∉ us →
    setComp (compsOfPrefix us vs) u (some v) = compsOfPrefix (us ++ [u]) (vs ++ [v]) := by
  intro us
  induction us with
  | nil =>
    intro vs u v hlen _
    cases vs with
    | nil => funext x; rfl
    | cons b bs => simp at hlen
  | cons a as ih =>
    intro vs u v hlen hmem
    cases vs with
    | nil => simp at hlen
    | cons b bs =>
      have hau : ¬ (u = a) := by rintro rfl; simp at hmem
      have hmem' : u ∉ as := by simp at hmem; exact hmem.2
      funext x
      have hx := congrFun (ih bs u v (by simpa using hlen) hmem') x
      simp only [setComp, compsOfPrefix, List.cons_append] at hx ⊢
      by_cases h1 : x = u
      · subst h1
        rw [if_pos rfl, if_neg hau]
        rw [if_pos rfl] at hx
        exact hx
      · rw [if_neg h1]
        by_cases h2 : x = a
        · rw [if_pos h2, if_pos h2]
        · rw [if_neg h2, if_neg h2]
          rw [if_neg h1] at hx
          exact hx

lemma charListLtB_iff_lex : ∀ xs ys : List Char,
    charListLtB xs ys = true ↔ List.Lex (· < ·) xs ys := by
  intro xs
  induction xs with
  | nil =>
    intro ys
    cases ys with
    | nil =>
      simp only [charListLtB]
      constructor
      · intro h; simp at h
      · intro h; cases h
    | cons d ds =>
      simp only [charListLtB]
      constructor
      · intro _; exact List.Lex.nil
      · intro _; trivial
  | cons c cs ih =>
    intro ys
    cases ys with
    | nil =>
      simp only [charListLtB]
      constructor
      · intro h; simp at h
      · intro h; cases h
    | cons d ds =>
      simp only [charListLtB, Bool.or_eq_true, Bool.and_eq_true, decide_eq_true_eq]
      constructor
      · rintro (h | ⟨rfl, h⟩)
        · exact List.Lex.rel h
        · exact List.Lex.cons ((ih ds).mp h)
      · intro h
        cases h with
        | rel hr => exact Or.inl hr
        | cons h' => exact Or.inr ⟨rfl, (ih ds).mpr h'⟩

lemma strLtB_iff (a b : String) : strLtB a b = true ↔ a.data < b.data := by
  unfold strLtB
  rw [charListLtB_iff_lex]
  constructor <;> exact fun h => h

lemma strLtB_asymm {a b : String} (h : strLtB a b = true) : strLtB b a = false := by
  rw [strLtB_iff] at h
  by_contra hb
  rw [Bool.not_eq_false, strLtB_iff] at hb
  exact absurd h (lt_asymm hb)

lemma strLtB_total {a b : String} (h1 : strLtB a b = false) (h2 : strLtB b a = false) :
    a = b := by
  rcases lt_trichotomy a.data b.data with h | h | h
  · rw [← strLtB_iff] at h; rw [h] at h1; exact absurd h1 (by simp)
  · exact congrArg String.mk h
  · rw [← strLtB_iff] at h; rw [h] at h2; exact absurd h2 (by simp)

lemma strLtB_trans {a b c : String} (h1 : strLtB a b = true) (h2 : strLtB b c = true) :
    strLtB a c = true := by
  rw [strLtB_iff] at h1 h2 ⊢
  exact lt_trans h1 h2

lemma mem_insertKeyStr (k x : String) : ∀ l : List String,
    x ∈ insertKeyStr k l ↔ x = k ∨ x ∈ l := by
  intro l
  induction l with
  | nil => simp [insertKeyStr]
  | cons h t ih =>
    unfold insertKeyStr
    by_cases h1 : strLtB k h = true
    · simp [h1]
    · rw [if_neg h1]
      by_cases h2 : strLtB h k = true
      · rw [if_pos h2]
        simp only [List.mem_cons, ih]
        tauto
      · rw [if_neg h2]
        have : k = h := strLtB_total (by simpa using h1) (by simpa using h2)
        subst this
        simp only [List.mem_cons]
        tauto

lemma pairwise_insertKeyStr (k : String) : ∀ l : List String,
    List.Pairwise (fun a b => strLtB a b = true) l →
    List.Pairwise (fun a b => strLtB a b = true) (insertKeyStr k l) := by
  intro l
  induction l with
  | nil => intro _; simp [insertKeyStr]
  | cons h t ih =>
    intro hp
    rw [List.pairwise_cons] at hp
    unfold insertKeyStr
    by_cases h1 : strLtB k h = true
    · rw [if_pos h1]
      refine List.Pairwise.cons ?_ (List.Pairwise.cons hp.1 hp.2)
      intro b hb
      rcases List.mem_cons.mp hb with rfl | hb
      · exact h1
      · exact strLtB_trans h1 (hp.1 b hb)
    · rw [if_neg h1]
      by_cases h2 : strLtB h k = true
      · rw [if_pos h2]
        refine List.Pairwise.cons ?_ (ih hp.2)
        intro b hb
        rcases (mem_insertKeyStr k b t).mp hb with rfl | hb
        · exact h2
        · exact hp.1 b hb
      · rw [if_neg h2]
        exact List.Pairwise.cons hp.1 hp.2

lemma mem_sortDedupKeys (x : String) (l : List String) :
    x ∈ sortDedupKeys l ↔ x ∈ l := by
  unfold sortDedupKeys
  induction l with
  | nil => simp
  | cons h t ih => simp [List.foldr_cons, mem_insertKeyStr, ih]

lemma pairwise_sortDedupKeys (l : List String) :
    List.Pairwise (fun a b => strLtB a b = true) (sortDedupKeys l) := by
  unfold sortDedupKeys
  induction l with
  | nil => simp
  | cons h t ih => exact pairwise_insertKeyStr h _ ih

lemma strLtB_enc_iff (u : DateUnit) {a b : Int} (ha : validRange u a) (hb : validRange u b) :
    (strLtB (encodeKey a u) (encodeKey b u) = true) ↔ a < b := by
  obtain ⟨ha0, haB, hp⟩ := validRange_facts u a ha
  obtain ⟨hb0, hbB, _⟩ := validRange_facts u b hb
  have hlenA := encodeKey_length a u ha0 haB hp
  have hlenB := encodeKey_length b u hb0 hbB hp
  rw [strLtB, charListLtB_iff_lex,
    lex_digits_iff _ _ (encodeKey_all_digits a u ha0) (encodeKey_all_digits b u hb0) (by omega),
    encodeKey_value a u ha0, encodeKey_value b u hb0]
  omega

lemma enc_inj (u : DateUnit) {a b : Int} (ha : validRange u a) (hb : validRange u b)
    (h : encodeKey a u = encodeKey b u) : a = b :=
  (encodeDateComponent_strict_mono u a b ha hb).2 h

/-- Membership and bound characterization of a bounded child listing in
value space. -/
lemma inBoundsB_enc (u : DateUnit) (sv ev : Option Int) (v : Int) (sIncl eIncl : Bool)
    (hv : validRange u v)
    (hs : ∀ s, sv = some s → validRange u s) (he : ∀ e, ev = some e → validRange u e) :
    (inBoundsB (encodeDateComponent sv u) (encodeDateComponent ev u) sIncl eIncl
        (encodeKey v u) = true)
      ↔ ((∀ s, sv = some s → (if sIncl then s ≤ v else s < v)) ∧
         (∀ e, ev = some e → (if eIncl then v ≤ e else v < e))) := by
  unfold inBoundsB
  rw [Bool.and_eq_true]
  constructor
  · rintro ⟨h1, h2⟩
    constructor
    · intro s hsv
      subst hsv
      simp only [encodeDateComponent, Option.map_some'] at h1
      cases sIncl
      · simp only [Bool.false_eq_true, if_false] at h1 ⊢
        exact (strLtB_enc_iff u (hs s rfl) hv).mp h1
      · simp only [if_true] at h1 ⊢
        rw [Bool.not_eq_true'] at h1
        by_contra hlt
        have hx : strLtB (encodeKey v u) (encodeKey s u) = true :=
          (strLtB_enc_iff u hv (hs s rfl)).mpr (by omega)
        rw [hx] at h1
        exact absurd h1 (by simp)
    · intro e hev
      subst hev
      simp only [encodeDateComponent, Option.map_some'] at h2
      cases eIncl
      · simp only [Bool.false_eq_true, if_false] at h2 ⊢
        exact (strLtB_enc_iff u hv (he e rfl)).mp h2
      · simp only [if_true] at h2 ⊢
        rw [Bool.not_eq_true'] at h2
        by_contra hlt
        have hx : strLtB (encodeKey e u) (encodeKey v u) = true :=
          (strLtB_enc_iff u (he e rfl) hv).mpr (by omega)
        rw [hx] at h2
        exact absurd h2 (by simp)
  · rintro ⟨h1, h2⟩
    constructor
    · cases hsv : sv with
      | none => simp [encodeDateComponent]
      | some s =>
        have := h1 s hsv
        simp only [encodeDateComponent, Option.map_some']
        cases sIncl
        · simp only [Bool.false_eq_true, if_false] at this ⊢
          exact (strLtB_enc_iff u (hs s hsv) hv).mpr this
        · simp only [if_true] at this ⊢
          have hnot : ¬ (strLtB (encodeKey v u) (encodeKey s u) = true) := by
            rw [strLtB_enc_iff u hv (hs s hsv)]
            omega
          simpa using hnot
    · cases hev : ev with
      | none => simp [encodeDateComponent]
      | some e =>
        have := h2 e hev
        simp only [encodeDateComponent, Option.map_some']
        cases eIncl
        · simp only [Bool.false_eq_true, if_false] at this ⊢
          exact (strLtB_enc_iff u hv (he e hev)).mpr this
        · simp only [if_true] at this ⊢
          have hnot : ¬ (strLtB (encodeKey e u) (encodeKey v u) = true) := by
            rw [strLtB_enc_iff u (he e hev) hv]
            omega
          simpa using hnot

lemma encodePath_append_general : ∀ (l1 : List DateUnit) (v1 : List Int)
    (l2 : List DateUnit) (v2 : List Int), l1.length = v1.length →
    encodePath (l1 ++ l2) (v1 ++ v2) = encodePath l1 v1 ++ encodePath l2 v2 := by
  intro l1
  induction l1 with
  | nil =>
    intro v1 l2 v2 hlen
    cases v1
    · rfl
    · simp at hlen
  | cons x xs ih =>
    intro v1 l2 v2 hlen
    cases v1 with
    | nil => simp at hlen
    | cons y ys =>
      simp only [List.cons_append, encodePath, List.cons.injEq, true_and]
      exact ih ys l2 v2 (by simpa using hlen)

lemma childKeyOf_char (res : DateUnit) (pre : List DateUnit) (u : DateUnit)
    (rest : List DateUnit) (hsplit : allUnits res = pre ++ u :: rest)
    (w : List Int) (hlen : pre.length = w.length)
    (hwv : List.Forall₂ (fun x v => validRange x v) pre w) (m : MomentM) (hm : m.Valid) :
    childKeyOf res (encodePath pre w) m
      = if compVecFrom pre m = w then some (encodeKey (graphDateValue (m.get u) u) u)
        else none := by
  unfold childKeyOf
  have hpathlen : (encodePath pre w).length = pre.length := encodePath_length pre w hlen
  have hsplitvec : compVecFrom (allUnits res) m
      = compVecFrom pre m ++ compVecFrom (u :: rest) m := by
    rw [hsplit, compVecFrom_append]
  have hpath : leafPath res m
      = encodePath pre (compVecFrom pre m) ++ encodePath (u :: rest) (compVecFrom (u :: rest) m) := by
    rw [leafPath_eq_encodePath, hsplitvec, hsplit,
      encodePath_append_general _ _ _ _ (compVecFrom_length pre m).symm]
  have htake : (leafPath res m).take (encodePath pre w).length
      = encodePath pre (compVecFrom pre m) := by
    rw [hpath, hpathlen,
      show pre.length = (encodePath pre (compVecFrom pre m)).length from
        (encodePath_length pre _ (compVecFrom_length pre m).symm).symm,
      List.take_left]
  have hdrop : (leafPath res m).drop (encodePath pre w).length
      = encodePath (u :: rest) (compVecFrom (u :: rest) m) := by
    rw [hpath, hpathlen,
      show pre.length = (encodePath pre (compVecFrom pre m)).length from
        (encodePath_length pre _ (compVecFrom_length pre m).symm).symm,
      List.drop_left]
  by_cases hvec : compVecFrom pre m = w
  · rw [if_pos hvec, if_pos (by rw [htake, hvec]), hdrop]
    simp [encodePath, compVecFrom]
  · rw [if_neg hvec, if_neg ?_]
    rw [htake]
    intro heq
    exact hvec (encodePath_inj pre _ _ (valid_vec m hm pre) hwv heq)

/-- Rebuilding a valid, resolution-aligned date from its accumulated graph
components gives back the date. -/
lemma reconstruct_eq (res : DateUnit) (m : MomentM) (hv : m.Valid) (ha : alignedAt m res) :
    getDateWithComponents (compsOfPrefix (allUnits res) (compVecFrom (allUnits res) m))
      (some res) = m := by
  obtain ⟨my, mm, md, mh, mmi, msec, mms⟩ := m
  obtain ⟨h1, h2, h3, h4, h5, h6, h7, h8, h9, h10, h11, h12, h13, h14⟩ := hv
  unfold alignedAt at ha
  cases res
  case year =>
    simp only [startOfMoment, MomentM.mk.injEq] at ha
    simp [getDateWithComponents, getDateWithComponentsAux, ALL_DATE_UNITS, compsOfPrefix,
      compVecFrom, MomentM.set, native_graph, ZERO_DATE, MomentM.get, allUnits, allUnitsAux,
      MomentM.mk.injEq, graphDateValue, nativeDateValue]
    omega
  case month =>
    simp only [startOfMoment, MomentM.mk.injEq] at ha
    simp [getDateWithComponents, getDateWithComponentsAux, ALL_DATE_UNITS, compsOfPrefix,
      compVecFrom, MomentM.set, native_graph, ZERO_DATE, MomentM.get, allUnits, allUnitsAux,
      MomentM.mk.injEq, graphDateValue, nativeDateValue]
    omega
  case day =>
    simp only [startOfMoment, MomentM.mk.injEq] at ha
    simp [getDateWithComponents, getDateWithComponentsAux, ALL_DATE_UNITS, compsOfPrefix,
      compVecFrom, MomentM.set, native_graph, ZERO_DATE, MomentM.get, allUnits, allUnitsAux,
      MomentM.mk.injEq, graphDateValue, nativeDateValue]
    omega
  case hour =>
    simp only [startOfMoment, MomentM.mk.injEq] at ha
    simp [getDateWithComponents, getDateWithComponentsAux, ALL_DATE_UNITS, compsOfPrefix,
      compVecFrom, MomentM.set, native_graph, ZERO_DATE, MomentM.get, allUnits, allUnitsAux,
      MomentM.mk.injEq, graphDateValue, nativeDateValue]
    omega
  case minute =>
    simp only [startOfMoment, MomentM.mk.injEq] at ha
    simp [getDateWithComponents, getDateWithComponentsAux, ALL_DATE_UNITS, compsOfPrefix,
      compVecFrom, MomentM.set, native_graph, ZERO_DATE, MomentM.get, allUnits, allUnitsAux,
      MomentM.mk.injEq, graphDateValue, nativeDateValue]
    omega
  case second =>
    simp only [startOfMoment, MomentM.mk.injEq] at ha
    simp [getDateWithComponents, getDateWithComponentsAux, ALL_DATE_UNITS, compsOfPrefix,
      compVecFrom, MomentM.set, native_graph, ZERO_DATE, MomentM.get, allUnits, allUnitsAux,
      MomentM.mk.injEq, graphDateValue, nativeDateValue]
    omega
  case millisecond =>
    simp only [startOfMoment, MomentM.mk.injEq] at ha
    simp [getDateWithComponents, getDateWithComponentsAux, ALL_DATE_UNITS, compsOfPrefix,
      compVecFrom, MomentM.set, native_graph, ZERO_DATE, MomentM.get, allUnits, allUnitsAux,
      MomentM.mk.injEq, graphDateValue, nativeDateValue]

/-- For resolution-aligned dates, moment order is the lexicographic order on
the truncated graph component vectors. -/
lemma momentLt_iff_vec (res : DateUnit) (m m' : MomentM)
    (ha : alignedAt m res) (ha' : alignedAt m' res) :
    momentLt m m' ↔ vecLtB (compVecFrom (allUnits res) m) (compVecFrom (allUnits res) m') = true := by
  obtain ⟨my, mm, md, mh, mmi, msec, mms⟩ := m
  obtain ⟨ny, nm, nd, nh, nmi, nsec, nms⟩ := m'
  unfold alignedAt at ha ha'
  cases res
  case year =>
    simp only [startOfMoment, MomentM.mk.injEq] at ha ha'
    simp only [momentLt_iff, compVecFrom, allUnits, allUnitsAux, ALL_DATE_UNITS, MomentM.get,
      graphDateValue]
    simp [vecLtB]
    omega
  case month =>
    simp only [startOfMoment, MomentM.mk.injEq] at ha ha'
    simp only [momentLt_iff, compVecFrom, allUnits, allUnitsAux, ALL_DATE_UNITS, MomentM.get,
      graphDateValue]
    simp [vecLtB]
    omega
  case day =>
    simp only [startOfMoment, MomentM.mk.injEq] at ha ha'
    simp only [momentLt_iff, compVecFrom, allUnits, allUnitsAux, ALL_DATE_UNITS, MomentM.get,
      graphDateValue]
    simp [vecLtB]
    omega
  case hour =>
    simp only [startOfMoment, MomentM.mk.injEq] at ha ha'
    simp only [momentLt_iff, compVecFrom, allUnits, allUnitsAux, ALL_DATE_UNITS, MomentM.get,
      graphDateValue]
    simp [vecLtB]
    omega
  case minute =>
    simp only [startOfMoment, MomentM.mk.injEq] at ha ha'
    simp only [momentLt_iff, compVecFrom, allUnits, allUnitsAux, ALL_DATE_UNITS, MomentM.get,
      graphDateValue]
    simp [vecLtB]
    omega
  case second =>
    simp only [startOfMoment, MomentM.mk.injEq] at ha ha'
    simp only [momentLt_iff, compVecFrom, allUnits, allUnitsAux, ALL_DATE_UNITS, MomentM.get,
      graphDateValue]
    simp [vecLtB]
    omega
  case millisecond =>
    simp only [startOfMoment, MomentM.mk.injEq] at ha ha'
    simp only [momentLt_iff, compVecFrom, allUnits, allUnitsAux, ALL_DATE_UNITS, MomentM.get,
      graphDateValue]
    simp [vecLtB]

lemma allUnits_length (res : DateUnit) : (allUnits res).length = res.idx + 1 := by
  cases res <;> rfl

lemma spine_cond_iff (res : DateUnit) (pre rest : List DateUnit) (u : DateUnit)
    (hsplit : allUnits res = pre ++ u :: rest) (w : List Int) (hlen : pre.length = w.length)
    (X : MomentM) :
    (∀ u' : DateUnit, u'.idx < u.idx → compsOfPrefix pre w u' = getDateComponents X res u')
      ↔ w = compVecFrom pre X := by
  have hlenpre : pre.length + (u :: rest).length = res.idx + 1 := by
    rw [← allUnits_length res, hsplit]
    simp
  have hpresmall : pre.length ≤ res.idx := by
    simp only [List.length_cons] at hlenpre
    omega
  have hpre7 : pre.length < ALL_DATE_UNITS.length := by
    have : res.idx + 1 ≤ 7 := by cases res <;> simp [DateUnit.idx]
    simp only [show ALL_DATE_UNITS.length = 7 from rfl]
    omega
  have hpre_take : pre = ALL_DATE_UNITS.take pre.length := by
    have h1 : pre = (pre ++ u :: rest).take pre.length := by simp
    conv_lhs => rw [h1, ← hsplit, allUnits_eq_take res, List.take_take]
    rw [min_eq_left (by omega)]
  have hgetpre : ∀ j (hj : j < pre.length),
      pre.get ⟨j, hj⟩ = ALL_DATE_UNITS.get ⟨j, by omega⟩ := by
    intro j hj
    rw [List.get_of_eq hpre_take ⟨j, hj⟩]
    simp [List.getElem_take]
  have hidxpre : ∀ j (hj : j < pre.length), (pre.get ⟨j, hj⟩).idx = j := by
    intro j hj
    rw [hgetpre j hj]
    exact ladder_get_idx ⟨j, by omega⟩
  have hu_idx : u.idx = pre.length := by
    have h1 : (pre ++ u :: rest).get ⟨pre.length, by simp⟩ = u := by
      rw [List.get_eq_getElem, List.getElem_append_right (le_refl _)]
      simp
    have h3 : ALL_DATE_UNITS.get ⟨pre.length, hpre7⟩ = u := by
      have h2 := List.get_of_eq hsplit ⟨pre.length, by rw [hsplit]; simp⟩
      rw [h1] at h2
      have h4 := List.get_of_eq (allUnits_eq_take res) ⟨pre.length, by rw [hsplit]; simp⟩
      rw [h2] at h4
      rw [show (ALL_DATE_UNITS.take (res.idx + 1)).get
          ⟨pre.length, by simp [List.length_take]; constructor <;> omega⟩
          = ALL_DATE_UNITS.get ⟨pre.length, hpre7⟩ from by simp [List.getElem_take]] at h4
      exact h4.symm
    have := ladder_get_idx ⟨pre.length, hpre7⟩
    rw [h3] at this
    exact this
  have hnd : pre.Nodup := by
    rw [hpre_take]
    exact take_ladder_nodup _
  constructor
  · intro h
    apply List.ext_getElem (by rw [← hlen]; simp [compVecFrom])
    intro j hjw hjv
    have hj : j < pre.length := by omega
    have h1 := h (pre.get ⟨j, hj⟩) (by rw [hidxpre j hj, hu_idx]; exact hj)
    rw [compsOfPrefix_get pre w j hj (by omega) hnd] at h1
    have hjle : (pre.get ⟨j, hj⟩).idx ≤ res.idx := by rw [hidxpre j hj]; omega
    rw [getDateComponents, if_pos hjle] at h1
    have h2 := Option.some_inj.mp h1
    simp only [compVecFrom, List.getElem_map]
    exact h2
  · intro hw u' hu'
    have hu'pre : u' ∈ pre := by
      rw [hpre_take, mem_ladder_take]
      omega
    obtain ⟨j, hju⟩ := List.mem_iff_get.mp hu'pre
    rw [← hju, compsOfPrefix_get pre w j.1 j.2 (by rw [← hlen]; exact j.2) hnd]
    have hjle : (pre.get j).idx ≤ res.idx := by
      rw [show pre.get j = pre.get ⟨j.1, j.2⟩ from rfl, hidxpre j.1 j.2]
      omega
    rw [getDateComponents, if_pos hjle]
    congr 1
    rw [List.get_of_eq hw ⟨j.1, by rw [← hlen]; exact j.2⟩]
    simp only [compVecFrom, List.get_eq_getElem, List.getElem_map]

/-- The suffix of the interval's lower-bound condition: the remaining
components of a leaf are at least the bound's remaining components, the final
position governed by the inclusivity flag. -/
def suffGe : List Int → List Int → Bool → Prop
  | a :: as, b :: bs, incl => b < a ∨ (a = b ∧ suffGe as bs incl)
  | [], [], incl => incl = true
  | _, _, _ => False

/-- The suffix of the interval's upper-bound condition. -/
def suffLe : List Int → List Int → Bool → Prop
  | a :: as, b :: bs, incl => a < b ∨ (a = b ∧ suffLe as bs incl)
  | [], [], incl => incl = true
  | _, _, _ => False

lemma suffGe_true_iff : ∀ (x s : List Int), x.length = s.length →
    (suffGe x s true ↔ (vecLtB s x = true ∨ s = x)) := by
  intro x
  induction x with
  | nil =>
    intro s hlen
    cases s
    · simp [suffGe, vecLtB]
    · simp at hlen
  | cons a as ih =>
    intro s hlen
    cases s with
    | nil => simp at hlen
    | cons b bs =>
      simp only [suffGe, vecLtB_cons, List.cons.injEq]
      rw [ih bs (by simpa using hlen)]
      constructor
      · rintro (h | ⟨rfl, h | h⟩)
        · exact Or.inl (Or.inl h)
        · exact Or.inl (Or.inr ⟨rfl, h⟩)
        · exact Or.inr ⟨rfl, h⟩
      · rintro ((h | ⟨rfl, h⟩) | ⟨rfl, rfl⟩)
        · exact Or.inl h
        · exact Or.inr ⟨rfl, Or.inl h⟩
        · exact Or.inr ⟨rfl, Or.inr rfl⟩

lemma suffLe_false_iff : ∀ (x e : List Int), x.length = e.length →
    (suffLe x e false ↔ vecLtB x e = true) := by
  intro x
  induction x with
  | nil =>
    intro e hlen
    cases e
    · simp [suffLe, vecLtB]
    · simp at hlen
  | cons a as ih =>
    intro e hlen
    cases e with
    | nil => simp at hlen
    | cons b bs =>
      simp only [suffLe, vecLtB_cons]
      rw [ih bs (by simpa using hlen)]

lemma vecLtB_of_prefix_lt : ∀ (w : List Int) (v1 v2 : Int) (t1 t2 : List Int), v1 < v2 →
    vecLtB (w ++ v1 :: t1) (w ++ v2 :: t2) = true := by
  intro w
  induction w with
  | nil => intro v1 v2 t1 t2 h; simp [vecLtB_cons, h]
  | cons a as ih =>
    intro v1 v2 t1 t2 h
    simp only [List.cons_append, vecLtB_cons]
    refine Or.inr ⟨by simp, ih v1 v2 t1 t2 h⟩

lemma vec_inj (res : DateUnit) (m m' : MomentM) (hv : m.Valid) (hv' : m'.Valid)
    (ha : alignedAt m res) (ha' : alignedAt m' res)
    (h : compVecFrom (allUnits res) m = compVecFrom (allUnits res) m') : m = m' := by
  rw [← reconstruct_eq res m hv ha, ← reconstruct_eq res m' hv' ha', h]

lemma validRange_nonneg {u : DateUnit} {v : Int} (h : validRange u v) : 0 ≤ v := by
  cases u <;> simp [validRange] at h <;> omega

lemma mem_ite_reverse {k : String} {l : List String} {rev : Bool} :
    k ∈ (if rev then l.reverse else l) ↔ k ∈ l := by
  cases rev <;> simp

lemma allUnits_nodup (res : DateUnit) : (allUnits res).Nodup := by
  rw [allUnits_eq_take]
  exact take_ladder_nodup _

lemma suffGe_single (x s : Int) (incl : Bool) :
    suffGe [x] [s] incl ↔ (if incl then s ≤ x else s < x) := by
  cases incl <;> simp [suffGe] <;> omega

lemma suffLe_single (x e : Int) (incl : Bool) :
    suffLe [x] [e] incl ↔ (if incl then x ≤ e else x < e) := by
  cases incl <;> simp [suffLe] <;> omega

lemma snoc_inj {w w' : List Int} {v v' : Int} (hlen : w.length = w'.length)
    (h : w ++ [v] = w' ++ [v']) : w = w' ∧ v = v' := by
  have h1 := List.append_inj h hlen
  refine ⟨h1.1, ?_⟩
  simpa using h1.2

/-- The bound value the traversal applies on one side at unit `u`, expressed
through the spine condition. -/
lemma bound_char (res : DateUnit) (pre rest : List DateUnit) (u : DateUnit)
    (hsplit : allUnits res = pre ++ u :: rest) (w : List Int) (hlen : pre.length = w.length)
    (X Y : MomentM) :
    (getDateComponentRange (compsOfPrefix pre w) (getDateComponents X res)
        (getDateComponents Y res) u).1
      = (if w = compVecFrom pre X then some (graphDateValue (X.get u) u) else none) ∧
    (getDateComponentRange (compsOfPrefix pre w) (getDateComponents X res)
        (getDateComponents Y res) u).2
      = (if w = compVecFrom pre Y then some (graphDateValue (Y.get u) u) else none) := by
  have humem : u ∈ allUnits res := by rw [hsplit]; simp
  have hule : u.idx ≤ res.idx := by
    rw [allUnits_eq_take] at humem
    rw [mem_ladder_take] at humem
    omega
  have hXu : getDateComponents X res u = some (graphDateValue (X.get u) u) := by
    simp [getDateComponents, hule]
  have hYu : getDateComponents Y res u = some (graphDateValue (Y.get u) u) := by
    simp [getDateComponents, hule]
  have hchar := getDateComponentRange_spine_characterization (compsOfPrefix pre w)
    (getDateComponents X res) (getDateComponents Y res) u
  constructor
  · rw [hchar.1]
    by_cases hsp : w = compVecFrom pre X
    · rw [if_pos ⟨by rw [hXu]; rfl,
        (spine_cond_iff res pre rest u hsplit w hlen X).mpr hsp⟩, if_pos hsp, hXu]
    · rw [if_neg ?_, if_neg hsp]
      rintro ⟨_, hcond⟩
      exact hsp ((spine_cond_iff res pre rest u hsplit w hlen X).mp hcond)
  · rw [hchar.2]
    by_cases hsp : w = compVecFrom pre Y
    · rw [if_pos ⟨by rw [hYu]; rfl,
        (spine_cond_iff res pre rest u hsplit w hlen Y).mpr hsp⟩, if_pos hsp, hYu]
    · rw [if_neg ?_, if_neg hsp]
      rintro ⟨_, hcond⟩
      exact hsp ((spine_cond_iff res pre rest u hsplit w hlen Y).mp hcond)

/-- Characterization of a level's bounded child listing in the traversal:
it holds exactly the encoded component values of the stored leaves extending
the chosen path, restricted by the spine bounds. -/
lemma level_keys_char (D : List MomentM) (res : DateUnit) (S E : MomentM)
    (hD : ∀ m ∈ D, m.Valid ∧ alignedAt m res) (hS : S.Valid) (hE : E.Valid)
    (pre rest : List DateUnit) (u : DateUnit)
    (hsplit : allUnits res = pre ++ u :: rest)
    (w : List Int) (hlen : pre.length = w.length)
    (hwv : List.Forall₂ (fun x v => validRange x v) pre w)
    (i1 i2 rev : Bool) (k : String) :
    (k ∈ iterateRefs D res (encodePath pre w)
        (encodeDateComponent (getDateComponentRange (compsOfPrefix pre w)
          (getDateComponents S res) (getDateComponents E res) u).1 u)
        (encodeDateComponent (getDateComponentRange (compsOfPrefix pre w)
          (getDateComponents S res) (getDateComponents E res) u).2 u)
        i1 i2 rev)
      ↔ ∃ m ∈ D, compVecFrom pre m = w ∧ k = encodeKey (graphDateValue (m.get u) u) u ∧
          (w = compVecFrom pre S →
            (if i1 then graphDateValue (S.get u) u ≤ graphDateValue (m.get u) u
             else graphDateValue (S.get u) u < graphDateValue (m.get u) u)) ∧
          (w = compVecFrom pre E →
            (if i2 then graphDateValue (m.get u) u ≤ graphDateValue (E.get u) u
             else graphDateValue (m.get u) u < graphDateValue (E.get u) u)) := by
  obtain ⟨hb1, hb2⟩ := bound_char res pre rest u hsplit w hlen S E
  unfold iterateRefs
  rw [mem_ite_reverse, List.mem_filter]
  unfold childRefs
  rw [mem_sortDedupKeys, List.mem_filterMap]
  constructor
  · rintro ⟨⟨m, hmD, hmk⟩, hbnd⟩
    rw [childKeyOf_char res pre u rest hsplit w hlen hwv m (hD m hmD).1] at hmk
    by_cases hvec : compVecFrom pre m = w
    · rw [if_pos hvec] at hmk
      have hk := (Option.some_inj.mp hmk).symm
      subst hk
      rw [hb1, hb2] at hbnd
      have hvu : validRange u (graphDateValue (m.get u) u) :=
        valid_graph_range m (hD m hmD).1 u
      refine ⟨m, hmD, hvec, rfl, ?_, ?_⟩
      · intro hsp
        have := (inBoundsB_enc u
          (if w = compVecFrom pre S then some (graphDateValue (S.get u) u) else none)
          (if w = compVecFrom pre E then some (graphDateValue (E.get u) u) else none)
          (graphDateValue (m.get u) u) i1 i2 hvu
          (by intro s hs; rw [if_pos hsp] at hs; rw [← Option.some_inj.mp hs];
              exact valid_graph_range S hS u)
          (by intro e he; by_cases hspE : w = compVecFrom pre E
              · rw [if_pos hspE] at he; rw [← Option.some_inj.mp he]
                exact valid_graph_range E hE u
              · rw [if_neg hspE] at he; exact absurd he (by simp))).mp hbnd
        exact this.1 _ (by rw [if_pos hsp])
      · intro hsp
        have := (inBoundsB_enc u
          (if w = compVecFrom pre S then some (graphDateValue (S.get u) u) else none)
          (if w = compVecFrom pre E then some (graphDateValue (E.get u) u) else none)
          (graphDateValue (m.get u) u) i1 i2 hvu
          (by intro s hs; by_cases hspS : w = compVecFrom pre S
              · rw [if_pos hspS] at hs; rw [← Option.some_inj.mp hs]
                exact valid_graph_range S hS u
              · rw [if_neg hspS] at hs; exact absurd hs (by simp))
          (by intro e he; rw [if_pos hsp] at he; rw [← Option.some_inj.mp he]
              exact valid_graph_range E hE u)).mp hbnd
        exact this.2 _ (by rw [if_pos hsp])
    · rw [if_neg hvec] at hmk
      exact absurd hmk (by simp)
  · rintro ⟨m, hmD, hvec, hk, hcondS, hcondE⟩
    subst hk
    have hvu : validRange u (graphDateValue (m.get u) u) :=
      valid_graph_range m (hD m hmD).1 u
    refine ⟨⟨m, hmD, ?_⟩, ?_⟩
    · rw [childKeyOf_char res pre u rest hsplit w hlen hwv m (hD m hmD).1, if_pos hvec]
    · rw [hb1, hb2]
      apply (inBoundsB_enc u _ _ _ i1 i2 hvu
        (by intro s hs; by_cases hspS : w = compVecFrom pre S
            · rw [if_pos hspS] at hs; rw [← Option.some_inj.mp hs]
              exact valid_graph_range S hS u
            · rw [if_neg hspS] at hs; exact absurd hs (by simp))
        (by intro e he; by_cases hspE : w = compVecFrom pre E
            · rw [if_pos hspE] at he; rw [← Option.some_inj.mp he]
              exact valid_graph_range E hE u
            · rw [if_neg hspE] at he; exact absurd he (by simp))).mpr
      constructor
      · intro s hs
        by_cases hspS : w = compVecFrom pre S
        · rw [if_pos hspS] at hs
          rw [← Option.some_inj.mp hs]
          exact hcondS hspS
        · rw [if_neg hspS] at hs
          exact absurd hs (by simp)
      · intro e he
        by_cases hspE : w = compVecFrom pre E
        · rw [if_pos hspE] at he
          rw [← Option.some_inj.mp he]
          exact hcondE hspE
        · rw [if_neg hspE] at he
          exact absurd he (by simp)

/-- The keys of a level's bounded child listing are strictly ordered in the
listing direction. -/
lemma level_keys_pairwise (D : List MomentM) (res : DateUnit) (p : List String)
    (sk ek : Option String) (i1 i2 rev : Bool) :
    List.Pairwise (fun k1 k2 => (if rev then strLtB k2 k1 else strLtB k1 k2) = true)
      (iterateRefs D res p sk ek i1 i2 rev) := by
  unfold iterateRefs
  cases rev
  · simp only [Bool.false_eq_true, if_false]
    exact (pairwise_sortDedupKeys _).filter _
  · simp only [if_true]
    rw [List.pairwise_reverse]
    exact (pairwise_sortDedupKeys _).filter _

lemma iterateVisit_spec (D : List MomentM) (res : DateUnit) (S E : MomentM)
    (startIncl endIncl rev : Bool)
    (hD : ∀ m ∈ D, m.Valid ∧ alignedAt m res) (hS : S.Valid) (hE : E.Valid) :
    ∀ (rest pre : List DateUnit) (w : List Int),
    allUnits res = pre ++ rest → rest ≠ [] → pre.length = w.length →
    List.Forall₂ (fun x v => validRange x v) pre w →
    ((∀ pr : List String × MomentM,
        pr ∈ iterateVisit D res (getDateComponents S res) (getDateComponents E res)
            startIncl endIncl rev rest (encodePath pre w) (compsOfPrefix pre w)
          ↔ ∃ m ∈ D, compVecFrom pre m = w ∧
              (w = compVecFrom pre S →
                suffGe (compVecFrom rest m) (compVecFrom rest S) startIncl) ∧
              (w = compVecFrom pre E →
                suffLe (compVecFrom rest m) (compVecFrom rest E) endIncl) ∧
              pr = (leafPath res m, m)) ∧
      List.Pairwise (fun d1 d2 =>
          (if rev then vecLtB (compVecFrom (allUnits res) d2) (compVecFrom (allUnits res) d1)
           else vecLtB (compVecFrom (allUnits res) d1) (compVecFrom (allUnits res) d2)) = true)
        ((iterateVisit D res (getDateComponents S res) (getDateComponents E res)
            startIncl endIncl rev rest (encodePath pre w) (compsOfPrefix pre w)).map
          Prod.snd)) := by
  intro rest
  induction rest with
  | nil => intro pre w _ hne; exact absurd rfl hne
  | cons u rest' ih =>
    intro pre w hsplit _ hlen hwv
    have hupre : u ∉ pre := by
      have h := allUnits_nodup res
      rw [hsplit] at h
      intro hu
      exact (List.nodup_append.mp h).2.2 hu (by simp)
    cases rest' with
    | nil =>
      -- leaf level
      have hvx : ∀ m : MomentM, m.Valid → (0:Int) ≤ graphDateValue (m.get u) u :=
        fun m hv => validRange_nonneg (valid_graph_range m hv u)
      have hout : ∀ m, m ∈ D → compVecFrom pre m = w →
          (encodePath pre w ++ [encodeKey (graphDateValue (m.get u) u) u],
            getDateWithComponents (setComp (compsOfPrefix pre w) u
              (decodeDateComponent (encodeKey (graphDateValue (m.get u) u) u))) (some res))
            = (leafPath res m, m) := by
        intro m hmD hvec
        obtain ⟨hmV, hmA⟩ := hD m hmD
        have hfull : compVecFrom (allUnits res) m = w ++ [graphDateValue (m.get u) u] := by
          rw [hsplit, compVecFrom_append, hvec]
          rfl
        rw [decode_encodeKey _ _ (hvx m hmV),
          compsOfPrefix_snoc pre w u _ hlen hupre,
          ← encodePath_append pre w u _ hlen]
        rw [show pre ++ [u] = allUnits res from hsplit.symm, ← hfull,
          reconstruct_eq res m hmV hmA, leafPath_eq_encodePath]
      constructor
      · intro pr
        show pr ∈ List.map _ _ ↔ _
        rw [List.mem_map]
        constructor
        · rintro ⟨k, hk, rfl⟩
          obtain ⟨m, hmD, hvec, hkeq, hcS, hcE⟩ :=
            (level_keys_char D res S E hD hS hE pre [] u hsplit w hlen hwv
              startIncl endIncl rev k).mp hk
          subst hkeq
          refine ⟨m, hmD, hvec, ?_, ?_, (hout m hmD hvec)⟩
          · intro hsp
            rw [show compVecFrom [u] m = [graphDateValue (m.get u) u] from rfl,
              show compVecFrom [u] S = [graphDateValue (S.get u) u] from rfl,
              suffGe_single]
            exact hcS hsp
          · intro hsp
            rw [show compVecFrom [u] m = [graphDateValue (m.get u) u] from rfl,
              show compVecFrom [u] E = [graphDateValue (E.get u) u] from rfl,
              suffLe_single]
            exact hcE hsp
        · rintro ⟨m, hmD, hvec, hcS, hcE, rfl⟩
          refine ⟨encodeKey (graphDateValue (m.get u) u) u, ?_, hout m hmD hvec⟩
          apply (level_keys_char D res S E hD hS hE pre [] u hsplit w hlen hwv
            startIncl endIncl rev _).mpr
          refine ⟨m, hmD, hvec, rfl, ?_, ?_⟩
          · intro hsp
            have := hcS hsp
            rw [show compVecFrom [u] m = [graphDateValue (m.get u) u] from rfl,
              show compVecFrom [u] S = [graphDateValue (S.get u) u] from rfl,
              suffGe_single] at this
            exact this
          · intro hsp
            have := hcE hsp
            rw [show compVecFrom [u] m = [graphDateValue (m.get u) u] from rfl,
              show compVecFrom [u] E = [graphDateValue (E.get u) u] from rfl,
              suffLe_single] at this
            exact this
      · show List.Pairwise _ ((List.map _ _).map Prod.snd)
        rw [List.map_map]
        apply List.Pairwise.map _ ?_
          (List.Pairwise.and_mem.mp
            (level_keys_pairwise D res (encodePath pre w) _ _ startIncl endIncl rev))
        rintro k1 k2 ⟨hk1, hk2, hord⟩
        obtain ⟨m1, hm1D, hvec1, hkeq1, _, _⟩ :=
          (level_keys_char D res S E hD hS hE pre [] u hsplit w hlen hwv
            startIncl endIncl rev k1).mp hk1
        obtain ⟨m2, hm2D, hvec2, hkeq2, _, _⟩ :=
          (level_keys_char D res S E hD hS hE pre [] u hsplit w hlen hwv
            startIncl endIncl rev k2).mp hk2
        have hfull1 : compVecFrom (allUnits res) m1 = w ++ [graphDateValue (m1.get u) u] := by
          rw [hsplit, compVecFrom_append, hvec1]
          rfl
        have hfull2 : compVecFrom (allUnits res) m2 = w ++ [graphDateValue (m2.get u) u] := by
          rw [hsplit, compVecFrom_append, hvec2]
          rfl
        subst hkeq1
        subst hkeq2
        have hs1 : getDateWithComponents (setComp (compsOfPrefix pre w) u
            (decodeDateComponent (encodeKey (graphDateValue (m1.get u) u) u))) (some res) = m1 :=
          congrArg Prod.snd (hout m1 hm1D hvec1)
        have hs2 : getDateWithComponents (setComp (compsOfPrefix pre w) u
            (decodeDateComponent (encodeKey (graphDateValue (m2.get u) u) u))) (some res) = m2 :=
          congrArg Prod.snd (hout m2 hm2D hvec2)
        simp only [Function.comp_apply]
        rw [hs1, hs2]
        cases rev
        · simp only [Bool.false_eq_true, if_false] at hord ⊢
          have hvlt : graphDateValue (m1.get u) u < graphDateValue (m2.get u) u :=
            (strLtB_enc_iff u (valid_graph_range m1 (hD m1 hm1D).1 u)
              (valid_graph_range m2 (hD m2 hm2D).1 u)).mp hord
          rw [hfull1, hfull2]
          exact vecLtB_of_prefix_lt w _ _ [] [] hvlt
        · simp only [if_true] at hord ⊢
          have hvlt : graphDateValue (m2.get u) u < graphDateValue (m1.get u) u :=
            (strLtB_enc_iff u (valid_graph_range m2 (hD m2 hm2D).1 u)
              (valid_graph_range m1 (hD m1 hm1D).1 u)).mp hord
          rw [hfull1, hfull2]
          exact vecLtB_of_prefix_lt w _ _ [] [] hvlt
    | cons u2 rest'' =>
      have hsplit' : allUnits res = (pre ++ [u]) ++ u2 :: rest'' := by
        rw [hsplit]
        simp
      have hlen' : (pre ++ [u]).length = (fun v : Int => (w ++ [v]).length) 0 := by
        simp [hlen]
      have hvx : ∀ m : MomentM, m.Valid → (0:Int) ≤ graphDateValue (m.get u) u :=
        fun m hv => validRange_nonneg (valid_graph_range m hv u)
      have hg : ∀ m, m ∈ D → compVecFrom pre m = w →
          iterateVisit D res (getDateComponents S res) (getDateComponents E res)
            startIncl endIncl rev (u2 :: rest'')
            (encodePath pre w ++ [encodeKey (graphDateValue (m.get u) u) u])
            (setComp (compsOfPrefix pre w) u
              (decodeDateComponent (encodeKey (graphDateValue (m.get u) u) u)))
          = iterateVisit D res (getDateComponents S res) (getDateComponents E res)
            startIncl endIncl rev (u2 :: rest'')
            (encodePath (pre ++ [u]) (w ++ [graphDateValue (m.get u) u]))
            (compsOfPrefix (pre ++ [u]) (w ++ [graphDateValue (m.get u) u])) := by
        intro m hmD hvec
        obtain ⟨hmV, _⟩ := hD m hmD
        rw [decode_encodeKey _ _ (hvx m hmV), compsOfPrefix_snoc pre w u _ hlen hupre,
          ← encodePath_append pre w u _ hlen]
      have hihargs : ∀ (m : MomentM), m.Valid →
          List.Forall₂ (fun x v => validRange x v) (pre ++ [u])
            (w ++ [graphDateValue (m.get u) u]) := by
        intro m hmV
        exact List.rel_append hwv
          (List.Forall₂.cons (valid_graph_range m hmV u) List.Forall₂.nil)
      have hvecsplit : ∀ (m : MomentM), compVecFrom (pre ++ [u]) m
          = compVecFrom pre m ++ [graphDateValue (m.get u) u] := by
        intro m
        rw [compVecFrom_append]
        rfl
      have hSsplit : compVecFrom (pre ++ [u]) S
          = compVecFrom pre S ++ [graphDateValue (S.get u) u] := hvecsplit S
      have hEsplit : compVecFrom (pre ++ [u]) E
          = compVecFrom pre E ++ [graphDateValue (E.get u) u] := hvecsplit E
      have hlenS : w.length = (compVecFrom pre S).length := by
        rw [compVecFrom_length, ← hlen]
      have hlenE : w.length = (compVecFrom pre E).length := by
        rw [compVecFrom_length, ← hlen]
      constructor
      · intro pr
        show pr ∈ List.flatMap _ _ ↔ _
        rw [List.mem_flatMap]
        constructor
        · rintro ⟨k, hk, hpr⟩
          obtain ⟨mk, hmkD, hveck, hkeq, hbS, hbE⟩ :=
            (level_keys_char D res S E hD hS hE pre (u2 :: rest'') u hsplit w hlen hwv
              true true rev k).mp hk
          subst hkeq
          rw [hg mk hmkD hveck] at hpr
          obtain ⟨m, hmD, hvecm, hcS, hcE, hpreq⟩ :=
            ((ih (pre ++ [u]) (w ++ [graphDateValue (mk.get u) u]) hsplit' (by simp)
              (by simp [hlen]) (hihargs mk (hD mk hmkD).1)).1 pr).mp hpr
          rw [hvecsplit m] at hvecm
          obtain ⟨hvpre, hvu⟩ := snoc_inj (by rw [compVecFrom_length, ← hlen]) hvecm
          refine ⟨m, hmD, hvpre, ?_, ?_, hpreq⟩
          · intro hsp
            show suffGe (graphDateValue (m.get u) u :: compVecFrom (u2 :: rest'') m)
              (graphDateValue (S.get u) u :: compVecFrom (u2 :: rest'') S) startIncl
            have hb := hbS hsp
            simp only [if_true] at hb
            rcases lt_or_eq_of_le (by rw [← hvu] at hb; exact hb :
                graphDateValue (S.get u) u ≤ graphDateValue (m.get u) u) with hlt | heq
            · exact Or.inl hlt
            · refine Or.inr ⟨heq.symm, ?_⟩
              apply hcS
              rw [hSsplit, ← hvu, ← heq, hsp]
          · intro hsp
            show suffLe (graphDateValue (m.get u) u :: compVecFrom (u2 :: rest'') m)
              (graphDateValue (E.get u) u :: compVecFrom (u2 :: rest'') E) endIncl
            have hb := hbE hsp
            simp only [if_true] at hb
            rcases lt_or_eq_of_le (by rw [← hvu] at hb; exact hb :
                graphDateValue (m.get u) u ≤ graphDateValue (E.get u) u) with hlt | heq
            · exact Or.inl hlt
            · refine Or.inr ⟨heq, ?_⟩
              apply hcE
              rw [hEsplit, ← hvu, heq, hsp]
        · rintro ⟨m, hmD, hvpre, hcS, hcE, hpreq⟩
          refine ⟨encodeKey (graphDateValue (m.get u) u) u, ?_, ?_⟩
          · apply (level_keys_char D res S E hD hS hE pre (u2 :: rest'') u hsplit w hlen hwv
              true true rev _).mpr
            refine ⟨m, hmD, hvpre, rfl, ?_, ?_⟩
            · intro hsp
              have hss := hcS hsp
              simp only [compVecFrom, List.map_cons] at hss
              simp only [if_true]
              rcases hss with hlt | ⟨heq, _⟩
              · omega
              · omega
            · intro hsp
              have hss := hcE hsp
              simp only [compVecFrom, List.map_cons] at hss
              simp only [if_true]
              rcases hss with hlt | ⟨heq, _⟩
              · omega
              · omega
          · rw [hg m hmD hvpre]
            apply ((ih (pre ++ [u]) (w ++ [graphDateValue (m.get u) u]) hsplit' (by simp)
              (by simp [hlen]) (hihargs m (hD m hmD).1)).1 pr).mpr
            refine ⟨m, hmD, ?_, ?_, ?_, hpreq⟩
            · rw [hvecsplit m, hvpre]
            · intro hsp
              rw [hSsplit] at hsp
              obtain ⟨hw, hx⟩ := snoc_inj (by rw [← hlenS]) hsp
              have hss := hcS hw
              simp only [compVecFrom, List.map_cons] at hss
              rcases hss with hlt | ⟨_, htail⟩
              · exfalso
                omega
              · exact htail
            · intro hsp
              rw [hEsplit] at hsp
              obtain ⟨hw, hx⟩ := snoc_inj (by rw [← hlenE]) hsp
              have hss := hcE hw
              simp only [compVecFrom, List.map_cons] at hss
              rcases hss with hlt | ⟨_, htail⟩
              · exfalso
                omega
              · exact htail
      · show List.Pairwise _ ((List.flatMap _ _).map Prod.snd)
        rw [List.map_flatMap, List.flatMap_def]
        apply List.pairwise_flatten.mpr
        constructor
        · intro l' hl'
          obtain ⟨k, hk, hfk⟩ := List.mem_map.mp hl'
          obtain ⟨mk, hmkD, hveck, hkeq, _, _⟩ :=
            (level_keys_char D res S E hD hS hE pre (u2 :: rest'') u hsplit w hlen hwv
              true true rev k).mp hk
          subst hkeq
          rw [← hfk, hg mk hmkD hveck]
          exact (ih (pre ++ [u]) (w ++ [graphDateValue (mk.get u) u]) hsplit' (by simp)
            (by simp [hlen]) (hihargs mk (hD mk hmkD).1)).2
        · apply List.Pairwise.map _ ?_
            (List.Pairwise.and_mem.mp
              (level_keys_pairwise D res (encodePath pre w) _ _ true true rev))
          rintro k1 k2 ⟨hk1, hk2, hord⟩
          obtain ⟨mk1, hmk1D, hveck1, hkeq1, _, _⟩ :=
            (level_keys_char D res S E hD hS hE pre (u2 :: rest'') u hsplit w hlen hwv
              true true rev k1).mp hk1
          obtain ⟨mk2, hmk2D, hveck2, hkeq2, _, _⟩ :=
            (level_keys_char D res S E hD hS hE pre (u2 :: rest'') u hsplit w hlen hwv
              true true rev k2).mp hk2
          subst hkeq1
          subst hkeq2
          intro d1 hd1 d2 hd2
          rw [hg mk1 hmk1D hveck1] at hd1
          rw [hg mk2 hmk2D hveck2] at hd2
          obtain ⟨pr1, hpr1, hsnd1⟩ := List.mem_map.mp hd1
          obtain ⟨pr2, hpr2, hsnd2⟩ := List.mem_map.mp hd2
          obtain ⟨m1, hm1D, hvec1, _, _, hpr1eq⟩ :=
            ((ih (pre ++ [u]) (w ++ [graphDateValue (mk1.get u) u]) hsplit' (by simp)
              (by simp [hlen]) (hihargs mk1 (hD mk1 hmk1D).1)).1 pr1).mp hpr1
          obtain ⟨m2, hm2D, hvec2, _, _, hpr2eq⟩ :=
            ((ih (pre ++ [u]) (w ++ [graphDateValue (mk2.get u) u]) hsplit' (by simp)
              (by simp [hlen]) (hihargs mk2 (hD mk2 hmk2D).1)).1 pr2).mp hpr2
          have hd1m : d1 = m1 := by rw [← hsnd1, hpr1eq]
          have hd2m : d2 = m2 := by rw [← hsnd2, hpr2eq]
          subst hd1m
          subst hd2m
          have hfull1 : compVecFrom (allUnits res) d1
              = w ++ graphDateValue (mk1.get u) u :: compVecFrom (u2 :: rest'') d1 := by
            rw [hsplit']
            rw [compVecFrom_append, hvec1]
            simp
          have hfull2 : compVecFrom (allUnits res) d2
              = w ++ graphDateValue (mk2.get u) u :: compVecFrom (u2 :: rest'') d2 := by
            rw [hsplit']
            rw [compVecFrom_append, hvec2]
            simp
          cases rev
          · simp only [Bool.false_eq_true, if_false] at hord ⊢
            have hvlt : graphDateValue (mk1.get u) u < graphDateValue (mk2.get u) u :=
              (strLtB_enc_iff u (valid_graph_range mk1 (hD mk1 hmk1D).1 u)
                (valid_graph_range mk2 (hD mk2 hmk2D).1 u)).mp hord
            rw [hfull1, hfull2]
            exact vecLtB_of_prefix_lt w _ _ _ _ hvlt
          · simp only [if_true] at hord ⊢
            have hvlt : graphDateValue (mk2.get u) u < graphDateValue (mk1.get u) u :=
              (strLtB_enc_iff u (valid_graph_range mk2 (hD mk2 hmk2D).1 u)
                (valid_graph_range mk1 (hD mk1 hmk1D).1 u)).mp hord
            rw [hfull2, hfull1]
            exact vecLtB_of_prefix_lt w _ _ _ _ hvlt

instance (m : MomentM) (res : DateUnit) : Decidable (alignedAt m res) := by
  unfold alignedAt
  infer_instance

/-- Moment ordering `S ≤ m`: strictly before or the same instant. -/
def momentLe (a b : MomentM) : Prop := momentLt a b ∨ a = b

lemma allUnits_ne_nil (res : DateUnit) : allUnits res ≠ [] := by
  cases res <;> decide

/-- C1 (amended: the start and end bounds are aligned to the resolution).
For a tree holding the leaf dates `D` at resolution `res`, `iterate` over
`[S, E)` (start inclusive, end exclusive) yields exactly the pairs
`(leafPath res m, m)` for the members `m` of `D` with `S ≤ m < E`, in
ascending chronological order — descending when `rev` is set — hence with
no duplicates and no omissions.  Without the alignment restriction the
claim fails: see `iterate_unaligned_start_yields_outside`. -/
theorem iterate_range_completeness_aligned
    (D : List MomentM) (res : DateUnit) (S E : MomentM) (rev : Bool)
    (hD : ∀ m ∈ D, m.Valid ∧ alignedAt m res)
    (hS : S.Valid) (hE : E.Valid)
    (haS : alignedAt S res) (haE : alignedAt E res) :
    (∀ pr : List String × MomentM,
        pr ∈ DateTree.iterate D res (some S) (some E) true false rev ↔
          ∃ m ∈ D, momentLe S m ∧ momentLt m E ∧ pr = (leafPath res m, m)) ∧
    List.Pairwise (fun d1 d2 => if rev then momentLt d2 d1 else momentLt d1 d2)
      ((DateTree.iterate D res (some S) (some E) true false rev).map Prod.snd) := by
  have hmain := iterateVisit_spec D res S E true false rev hD hS hE
    (allUnits res) [] [] (by simp) (allUnits_ne_nil res) rfl List.Forall₂.nil
  have hiter : DateTree.iterate D res (some S) (some E) true false rev
      = iterateVisit D res (getDateComponents S res) (getDateComponents E res)
        true false rev (allUnits res) (encodePath [] []) (compsOfPrefix [] []) := rfl
  rw [hiter]
  obtain ⟨hmem, hpw⟩ := hmain
  have hlenm : ∀ m : MomentM, (compVecFrom (allUnits res) m).length
      = (allUnits res).length := fun m => compVecFrom_length _ m
  constructor
  · intro pr
    rw [hmem pr]
    constructor
    · rintro ⟨m, hmD, -, hgS, hlE, hpr⟩
      obtain ⟨hmV, hmA⟩ := hD m hmD
      refine ⟨m, hmD, ?_, ?_, hpr⟩
      · have hsg := (suffGe_true_iff _ _ (by rw [hlenm, hlenm])).mp (hgS rfl)
        rcases hsg with hlt | heq
        · exact Or.inl ((momentLt_iff_vec res S m haS hmA).mpr hlt)
        · exact Or.inr (vec_inj res S m hS hmV haS hmA heq)
      · have hsl := (suffLe_false_iff _ _ (by rw [hlenm, hlenm])).mp (hlE rfl)
        exact (momentLt_iff_vec res m E hmA haE).mpr hsl
    · rintro ⟨m, hmD, hSle, hltE, hpr⟩
      obtain ⟨hmV, hmA⟩ := hD m hmD
      refine ⟨m, hmD, rfl, ?_, ?_, hpr⟩
      · intro _
        apply (suffGe_true_iff _ _ (by rw [hlenm, hlenm])).mpr
        rcases hSle with hlt | heq
        · exact Or.inl ((momentLt_iff_vec res S m haS hmA).mp hlt)
        · exact Or.inr (by rw [heq])
      · intro _
        apply (suffLe_false_iff _ _ (by rw [hlenm, hlenm])).mpr
        exact (momentLt_iff_vec res m E hmA haE).mp hltE
  · refine List.Pairwise.imp_of_mem ?_ hpw
    intro d1 d2 hd1 hd2 hord
    obtain ⟨pr1, hpr1, hs1⟩ := List.mem_map.mp hd1
    obtain ⟨pr2, hpr2, hs2⟩ := List.mem_map.mp hd2
    obtain ⟨m1, hm1D, -, -, -, he1⟩ := (hmem pr1).mp hpr1
    obtain ⟨m2, hm2D, -, -, -, he2⟩ := (hmem pr2).mp hpr2
    have hd1e : d1 = m1 := by rw [← hs1, he1]
    have hd2e : d2 = m2 := by rw [← hs2, he2]
    subst hd1e
    subst hd2e
    cases rev
    · simp only [Bool.false_eq_true, if_false] at hord ⊢
      exact (momentLt_iff_vec res _ _ (hD _ hm1D).2 (hD _ hm2D).2).mpr hord
    · simp only [if_true] at hord ⊢
      exact (momentLt_iff_vec res _ _ (hD _ hm2D).2 (hD _ hm1D).2).mpr hord

theorem iterate_range_completeness_aligned_witness :
    (∀ m ∈ [(⟨2020, 7, 10, 0, 0, 0, 0⟩ : MomentM)], m.Valid ∧ alignedAt m .day) ∧
    (⟨2020, 7, 10, 0, 0, 0, 0⟩ : MomentM).Valid ∧
    (⟨2020, 7, 12, 0, 0, 0, 0⟩ : MomentM).Valid ∧
    alignedAt ⟨2020, 7, 10, 0, 0, 0, 0⟩ .day ∧
    alignedAt ⟨2020, 7, 12, 0, 0, 0, 0⟩ .day ∧
    ((∀ pr : List String × MomentM,
        pr ∈ DateTree.iterate [⟨2020, 7, 10, 0, 0, 0, 0⟩] .day
            (some ⟨2020, 7, 10, 0, 0, 0, 0⟩) (some ⟨2020, 7, 12, 0, 0, 0, 0⟩)
            true false false ↔
          ∃ m ∈ [(⟨2020, 7, 10, 0, 0, 0, 0⟩ : MomentM)],
            momentLe ⟨2020, 7, 10, 0, 0, 0, 0⟩ m ∧
              momentLt m ⟨2020, 7, 12, 0, 0, 0, 0⟩ ∧ pr = (leafPath .day m, m)) ∧
      List.Pairwise (fun d1 d2 => if false then momentLt d2 d1 else momentLt d1 d2)
        ((DateTree.iterate [⟨2020, 7, 10, 0, 0, 0, 0⟩] .day
            (some ⟨2020, 7, 10, 0, 0, 0, 0⟩) (some ⟨2020, 7, 12, 0, 0, 0, 0⟩)
            true false false).map Prod.snd)) :=
  ⟨by decide, by decide, by decide, by decide, by decide,
    iterate_range_completeness_aligned [⟨2020, 7, 10, 0, 0, 0, 0⟩] .day
      ⟨2020, 7, 10, 0, 0, 0, 0⟩ ⟨2020, 7, 12, 0, 0, 0, 0⟩ false
      (by decide) (by decide) (by decide) (by decide) (by decide)⟩

/-- C1 counterexample to the unamended claim: with a start bound that is not
aligned to the resolution, `iterate` yields a leaf whose date lies strictly
before the start of the interval.  The tree holds the single day-leaf
2020-08-10T00:00Z; iterating over start 2020-08-10T12:00Z (inclusive) and
end 2020-09-01T00:00Z (exclusive) yields that leaf, which is outside
`[S, E)`. -/
theorem iterate_unaligned_start_yields_outside :
    ∃ pr ∈ DateTree.iterate [(⟨2020, 7, 10, 0, 0, 0, 0⟩ : MomentM)] .day
        (some ⟨2020, 7, 10, 12, 0, 0, 0⟩) (some ⟨2020, 8, 1, 0, 0, 0, 0⟩)
        true false false,
      momentLt pr.2 ⟨2020, 7, 10, 12, 0, 0, 0⟩ := by
  decide

/-- C8: `getDate(ref)` fails with the invalid-reference error exactly when
the walk back from `ref` does not reach the root in exactly one step per
ladder unit (too early or not at the expected depth); at the expected depth
it returns the date rebuilt from the decoded keys zipped against the unit
ladder. -/
theorem getDate_ok_iff_depth (res : DateUnit) (ref : List String) :
    ((∃ d, DateTree.getDate res ref = .ok d) ↔ ref.length = (allUnits res).length) ∧
    (ref.length ≠ (allUnits res).length →
      DateTree.getDate res ref = .error invalidRefMsg) ∧
    (ref.length = (allUnits res).length →
      DateTree.getDate res ref
        = .ok (getDateWithComponents
            (zipObjectComps (allUnits res) (ref.map decodeDateComponent)) none)) := by
  have hn : 0 < (allUnits res).length := by cases res <;> decide
  unfold DateTree.getDate
  rw [getDateWalk_spec]
  by_cases h : ref.length = (allUnits res).length
  · rw [if_pos (by simpa using hn), if_pos (by simpa using h)]
    simp [h]
  · rw [if_pos (by simpa using hn), if_neg (by simpa using h)]
    simp [h]

theorem getDate_ok_iff_depth_witness :
    DateTree.getDate .day ["2020", "08", "10"]
      = .ok (getDateWithComponents
          (zipObjectComps (allUnits .day)
            (["2020", "08", "10"].map decodeDateComponent)) none) :=
  (getDate_ok_iff_depth .day ["2020", "08", "10"]).2.2 (by decide)
